import Mathlib

/-!
Verification development for the `lcs_diff_demo` repository.

The repository computes a longest common subsequence (LCS) of two line
sequences with one of several engines (`hm.py`: Hunt–McIlroy, `hs.py`:
Hunt–Szymanski, `kc.py`: Kuo–Cross) and renders a unified diff (`diff.py`).
This file is a shallow embedding of those Python sources: each Python
function becomes a Lean function on lists, with mutable arrays threaded as
explicit list-typed state, Python `while` loops as (fueled or well-founded)
recursions, and 1-based positions as natural numbers exactly as the source
uses them.  Out-of-range list accesses, which raise `IndexError` in Python,
are embedded with `List.getD`; every such access is annotated at its
definition with the default used and why the source keeps the index in
range.  Asserts in the source (debug aids) are not modelled.
-/

/-- Python `bisect.bisect_left` restricted-range binary search, as written
out manually in hm.py lines 68-77 and 136-143 (the `HAVE_BISECT_WITH_KEY_ARG`
branch is the library implementation of the same loop): `lo, hi := lo, hi;
while lo < hi: mid := (lo+hi)//2; if lt mid then lo := mid+1 else hi := mid;
return lo`.  `lt mid` stands for `key(xs[mid]) < target`. -/
def bisectLeftAux (lt : Nat → Bool) : Nat → Nat → Nat → Nat
  | 0, lo, _ => lo
  | fuel + 1, lo, hi =>
    if lo < hi then
      let mid := (lo + hi) / 2
      if lt mid then bisectLeftAux lt fuel (mid + 1) hi
      else bisectLeftAux lt fuel lo mid
    else lo

/-- The search with its exact fuel: `hi - lo` strictly bounds the number of
iterations of the `while lo < hi` loop, so `bisectLeft` computes precisely
what the Python loop does. -/
def bisectLeft (lt : Nat → Bool) (lo hi : Nat) : Nat :=
  bisectLeftAux lt (hi - lo) lo hi

/-- A candidate chain link: the Python tuple `(i, j, prev)` where `prev` is
another link or `None` (hm.py step 5ff, hs.py/kc.py `link` entries).  The
chain is persistent: links are never mutated, only superseded. -/
inductive Cand where
  | mk (i j : Nat) (prev : Option Cand)
deriving Repr

/-- First component (`c[0]`, the A-position) of a chain link. -/
def Cand.i : Cand → Nat
  | .mk i _ _ => i

/-- Second component (`c[1]`, the B-position) of a chain link. -/
def Cand.j : Cand → Nat
  | .mk _ j _ => j

/-- Third component (`c[2]`) of a chain link. -/
def Cand.prev : Cand → Option Cand
  | .mk _ _ p => p

/-- The `(i, j)` pairs of a chain from its top link down to the root
(the order the Python recovery loops visit them, before reversing). -/
def Cand.pairs : Cand → List (Nat × Nat)
  | .mk i j prev =>
    (i, j) :: match prev with
    | none => []
    | some p => p.pairs

/-- `Cand.pairs` lifted to an optional chain (`None` has no pairs). -/
def chainPairs : Option Cand → List (Nat × Nat)
  | none => []
  | some c => c.pairs

/-- `px.j` of an optional link, 0 for `None` (never read on `None` by the
source; 0 is the identity for the comparisons it appears in). -/
def candJD : Option Cand → Nat
  | none => 0
  | some c => c.j

/-- `px.i` of an optional link, 0 for `None`. -/
def candID : Option Cand → Nat
  | none => 0
  | some c => c.i

/-- Python `range(lo, hi)` over ints, as a list. -/
def pyRange (lo hi : Int) : List Int :=
  (List.range (hi - lo).toNat).map (fun t => lo + (t : Int))

def lcsLenAux [DecidableEq α] : Nat → List α → List α → Nat
  | 0, _, _ => 0
  | _ + 1, [], _ => 0
  | _ + 1, _ :: _, [] => 0
  | fuel + 1, a :: as, b :: bs =>
    if a = b then lcsLenAux fuel as bs + 1
    else max (lcsLenAux fuel (a :: as) bs) (lcsLenAux fuel as (b :: bs))

/-- The brute-force reference LCS length (the "true LCS length" of spec §8,
a definition by dynamic programming on the two sequences); the fuel
`|x| + |y|` bounds the recursion depth exactly. -/
def lcsLen [DecidableEq α] (x y : List α) : Nat :=
  lcsLenAux (x.length + y.length) x y

/-- Validity of an LCS result for sequences `A`, `B` (spec §8 "Validity"):
every pair `(i, j)` is 1-based into `A` and `B`, matches equal elements,
and consecutive pairs strictly increase in both coordinates. -/
def ValidLCS (A B : List α) (v : List (Nat × Nat)) : Prop :=
  (∀ p ∈ v, 1 ≤ p.1 ∧ p.1 ≤ A.length ∧ 1 ≤ p.2 ∧ p.2 ≤ B.length ∧
      A.get? (p.1 - 1) = B.get? (p.2 - 1)) ∧
  List.Chain' (fun p q => p.1 < q.1 ∧ p.2 < q.2) v

namespace Diff

/-- diff.py `frng` (line 33-34): format a header range, gnu style: the
start alone when the count is 1, else `start,count`. -/
def frng (i j : Int) : String :=
  if j = 1 then toString i else toString i ++ "," ++ toString j

/-- diff.py `at_change` (line 38-39): position `k` of the extended match
list is at a change iff it is not contiguous with `k-1` in both coordinates.
Only called with `k ≥ 1`; `lcs[k-1]` is embedded as `getD (k-1) (0,0)`. -/
def at_change (lcs : List (Int × Int)) (k : Nat) : Bool :=
  (lcs.getD (k - 1) (0, 0)).1 + 1 != (lcs.getD k (0, 0)).1 ||
  (lcs.getD (k - 1) (0, 0)).2 + 1 != (lcs.getD k (0, 0)).2

/-- The `while not at_change(lcs, k): k += 1` scan inside
`find_next_change` (diff.py line 46-47).  The oversized `(BIG, BIG)`
sentinel appended by `diff` guarantees a change before the end of the list,
so the fuel (passed as `lcs.length` by the caller) never runs out on the
states the source reaches. -/
def findChangeFrom (lcs : List (Int × Int)) : Nat → Nat → Nat
  | 0, k => k
  | fuel + 1, k => if at_change lcs k then k else findChangeFrom lcs fuel (k + 1)

/-- diff.py `find_next_change` (line 42-48): returns
`(endflag, index of next change, count of common lines before it)`. -/
def find_next_change (lcs : List (Int × Int)) (k : Nat) : Bool × Nat × Nat :=
  let k0 := k
  let k := findChangeFrom lcs lcs.length (k + 1)
  (k == lcs.length - 1, k, k - k0)

/-- The inner loop of `diff` (line 79-81): keep extending the current hunk
while the separating run of common lines is ≤ 2*nctx.  Returns
`(endflag, k, last)`.  Fueled by the caller with `lcs.length` (each
iteration advances `k` by at least one). -/
def gather (lcs : List (Int × Int)) :
    Nat → Bool → Nat → Nat → Nat → Bool × Nat × Nat
  | 0, endflag, k, _, last => (endflag, k, last)
  | fuel + 1, endflag, k, ncommon, last =>
    if !endflag && ncommon ≤ 2 * 3 then
      let (e', k', n') := find_next_change lcs k
      gather lcs fuel e' k' n' k
    else (endflag, k, last)

/-- Hunk body emission, diff.py lines 92-101: walk the extended sublist from
`begin_lcs` to `limit_lcs`, emitting deleted (`-`), inserted (`+`) and
context (` `) lines.  `a[n-1]` / `b[n-1]` are embedded as
`getD (n-1).toNat ""`; the source keeps `n` within 1..len because the match
pairs are in range. -/
def hunkBodyAux (a b : List String) (lcs : List (Int × Int))
    (limit_lcs : Nat) : Nat → Nat → List String
  | 0, _ => []
  | cnt + 1, kk =>
    let kk' := kk + 1
    let changed :=
      if at_change lcs kk' then
        (pyRange ((lcs.getD (kk' - 1) (0, 0)).1 + 1) ((lcs.getD kk' (0, 0)).1)).map
          (fun n => "-" ++ a.getD (n - 1).toNat "") ++
        (pyRange ((lcs.getD (kk' - 1) (0, 0)).2 + 1) ((lcs.getD kk' (0, 0)).2)).map
          (fun n => "+" ++ b.getD (n - 1).toNat "")
      else []
    let ctx :=
      if kk' < limit_lcs then [" " ++ a.getD ((lcs.getD kk' (0, 0)).1 - 1).toNat ""]
      else []
    changed ++ ctx ++ hunkBodyAux a b lcs limit_lcs cnt kk'

/-- The `while kk < limit_lcs` loop iterates exactly `limit_lcs - kk` times
(`kk` increases by one per iteration), which `hunkBodyAux` counts down. -/
def hunkBody (a b : List String) (lcs : List (Int × Int))
    (kk limit_lcs : Nat) : List String :=
  hunkBodyAux a b lcs limit_lcs (limit_lcs - kk) kk

/-- One iteration of the outer `while not endflag` loop of `diff`
(lines 73-101): group a run of changes into a hunk, emit its header and
body, and continue.  Fueled with `lcs.length + 1` by the caller; `k`
strictly increases between iterations in the source. -/
def diffLoop (a b : List String) (lcs : List (Int × Int)) :
    Nat → Bool → Nat → List String
  | 0, _, _ => []
  | fuel + 1, endflag, k =>
    if endflag then []
    else
      let first := k
      let (e1, k1, nc1) := find_next_change lcs k
      let (endflag', k', last) := gather lcs lcs.length e1 k1 nc1 first
      let begin_lcs := first - 1 - 3
      let p := lcs.getD begin_lcs (0, 0)
      let begin_a := p.1 + 1
      let begin_b := p.2 + 1
      let limit_lcs := min (last + 3) (lcs.length - 2)
      let q := lcs.getD limit_lcs (0, 0)
      let cnt_a := q.1 - begin_a
      let cnt_b := q.2 - begin_b
      let header := "@@ -" ++ frng begin_a cnt_a ++ " +" ++ frng begin_b cnt_b ++ " @@"
      (header :: hunkBody a b lcs begin_lcs limit_lcs) ++
        diffLoop a b lcs fuel endflag' k'
-- note: Python `max(first - 1 - nctx, 0)` is `first - 1 - 3` with Nat
-- truncated subtraction, which is the same clamp.

/-- diff.py `diff` (lines 51-101), after the two files have been read into
the line lists `a` and `b` and the selected engine has produced `lcs`.
The two `---`/`+++` header lines involve file names and modification times
(outside the core, spec §1); they are passed in already formatted as
`hdrA`/`hdrB`.  Returns the emitted output lines together with the final
value of the (mutated in place) `lcs` list. -/
def diff (hdrA hdrB : String) (a b : List String) (lcs0 : List (Nat × Nat)) :
    List String × List (Int × Int) :=
  let lcsI : List (Int × Int) := lcs0.map (fun p => ((p.1 : Int), (p.2 : Int)))
  if lcs0.length = a.length ∧ a.length = b.length then ([], lcsI)
  else
    -- lcs.insert(0, (0,0)); lcs.append((len(a)+1, len(b)+1)); lcs.append((BIG, BIG))
    let lcs := (((0 : Int), (0 : Int)) :: lcsI) ++
      [((a.length : Int) + 1, (b.length : Int) + 1), (999999999, 999999999)]
    let (e0, k0, _) := find_next_change lcs 0
    (hdrA :: hdrB :: diffLoop a b lcs (lcs.length + 1) e0 k0, lcs)

end Diff

/-! ## The Python value model for input-validation claims

The driver feeds the engines lists of `str`; hm.py's own validation admits
`str` or `int` elements and rejects anything else.  For the claims about
type validation we model a Python value as a string, an int, or some other
value (e.g. `None` or a `float`), with Python's `<` raising `TypeError`
between distinct types (and on `other`). -/

inductive Val where
  | str (s : String)
  | int (n : Int)
  | other
deriving DecidableEq, Repr

/-- `isinstance(v, str)`. -/
def Val.isStr : Val → Bool
  | .str _ => true
  | _ => false

/-- `isinstance(v, int)`. -/
def Val.isInt : Val → Bool
  | .int _ => true
  | _ => false

/-- Whether Python's order comparison `x < y` (the operation the engines'
sorts and binary searches need) is defined between two values: it raises
`TypeError` between distinct element types, and on non-`str`/`int` values. -/
def pyComparable : Val → Val → Bool
  | .str _, .str _ => true
  | .int _, .int _ => true
  | _, _ => false

/-- The error taxonomy seen by the embedding of hm.py's validation. -/
inductive PyErr where
  | typeError
deriving DecidableEq, Repr

/-- hm.py lines 36-44: build `V = list(zip(range(1, n+1), B))` and prepend
the sentinel `(0, '')` or `(0, 0)` according to the type of `V[0][1]`
(which is `B[0]`), raising `TypeError('Input lists must be of str or int.')`
when `V` is non-empty and `B[0]` is neither.  This is everything hm.py does
before its algorithmic steps #2-#8; it never looks at `A`. -/
def hmSetup (B : List Val) : Except PyErr (List (Nat × Val)) :=
  let V := List.zip (List.range' 1 B.length) B
  match V with
  | [] => .ok V
  | (_, v) :: _ =>
    if v.isStr then .ok ((0, Val.str "") :: V)
    else if v.isInt then .ok ((0, Val.int 0) :: V)
    else .error .typeError

/-! ## Shared preprocessing of hs.py and kc.py -/

theorem length_dropWhile_le (p : α → Bool) (l : List α) :
    (l.dropWhile p).length ≤ l.length := by
  induction l with
  | nil => simp [List.dropWhile]
  | cons a l ih =>
    simp only [List.dropWhile]
    split
    · exact Nat.le_succ_of_le ih
    · simp

/-- Sort order of hs.py lines 24-25: `key=lambda t: (t[0], -t[1])` — value
ascending, position descending on ties.  Python's `sorted` is a stable
sort, but the keys here are pairwise distinct (each position occurs once),
so the sorted permutation is unique and any sorting algorithm computes it;
the embedding uses `List.insertionSort`, which the kernel can evaluate. -/
def keyDesc [LinearOrder α] (x y : α × Nat) : Prop :=
  x.1 < y.1 ∨ (x.1 = y.1 ∧ y.2 ≤ x.2)

instance keyDescDec [LinearOrder α] : DecidableRel (keyDesc (α := α)) := fun x y =>
  inferInstanceAs (Decidable (x.1 < y.1 ∨ (x.1 = y.1 ∧ y.2 ≤ x.2)))

/-- Sort order of kc.py lines 23-24: plain tuple order — value ascending,
position ascending on ties (same uniqueness remark as for `keyDesc`). -/
def keyAsc [LinearOrder α] (x y : α × Nat) : Prop :=
  x.1 < y.1 ∨ (x.1 = y.1 ∧ x.2 ≤ y.2)

instance keyAscDec [LinearOrder α] : DecidableRel (keyAsc (α := α)) := fun x y =>
  inferInstanceAs (Decidable (x.1 < y.1 ∨ (x.1 = y.1 ∧ x.2 ≤ y.2)))

/-- The merge-scan building `matchlist` (hs.py lines 26-41 and identically
kc.py lines 25-40): walk the two value-sorted position lists in tandem;
on равных values, append the whole B-run of positions to `matchlist[k]`
and alias the same list to every further A-position of the run.
`matchlist[k]` updates are embedded with `List.set` (indices are positions
1..m, in range of the `m+1`-long list). -/
def matchScanAux [LinearOrder α] :
    Nat → List (α × Nat) → List (α × Nat) → List (List Nat) → List (List Nat)
  | 0, _, _, ml => ml
  | _ + 1, [], _, ml => ml
  | _ + 1, _ :: _, [], ml => ml
  | fuel + 1, (av, ka) :: aas, (bv, kb) :: bbs, ml =>
    if av < bv then matchScanAux fuel aas ((bv, kb) :: bbs) ml
    else if bv < av then matchScanAux fuel ((av, ka) :: aas) bbs ml
    else
      let js := (((bv, kb) :: bbs).takeWhile (fun q => decide (q.1 = bv))).map (·.2)
      let ml1 := ml.set ka js
      let arun := aas.takeWhile (fun q => decide (q.1 = av))
      let ml2 := arun.foldl (fun acc q => acc.set q.2 js) ml1
      matchScanAux fuel (aas.dropWhile (fun q => decide (q.1 = av)))
        (((bv, kb) :: bbs).dropWhile (fun q => decide (q.1 = bv))) ml2

/-- The merge-scan with its exact fuel: every iteration of the Python
`while ai < m and bi < n` loop consumes at least one element of one of the
two sorted lists, so `|aa| + |bb|` iterations always suffice. -/
def matchScan [LinearOrder α] (aa bb : List (α × Nat)) (ml : List (List Nat)) :
    List (List Nat) :=
  matchScanAux (aa.length + bb.length) aa bb ml

/-- `thresh = [n+1] * (m+1); thresh[0] = 0` (hs.py lines 43-45, kc.py
lines 42-44). -/
def threshInit (m n : Nat) : List Nat :=
  (List.replicate (m + 1) (n + 1)).set 0 0

/-- Step 4 of hs.py/kc.py (identical code, hs.py lines 60-63 / kc.py lines
70-73): `k = 0; while k < m and thresh[k+1] != n+1: k += 1`, fueled with
`m` (the loop runs at most `m` times since it stops at `k = m`). -/
def finalKAux (t : List Nat) (m n : Nat) : Nat → Nat → Nat
  | 0, k => k
  | fuel + 1, k =>
    if k < m ∧ t.getD (k + 1) 0 ≠ n + 1 then finalKAux t m n fuel (k + 1) else k

/-- The largest achieved subsequence length read off the threshold array. -/
def finalK (t : List Nat) (m n : Nat) : Nat := finalKAux t m n m 0

namespace hs

/-- Processing of one candidate `j` of `matchlist[i]` (hs.py lines 50-56):
binary-search the threshold array for the slot `k` with
`thresh[k-1] < j <= thresh[k]` and record an improvement.  `thresh[k]` is
embedded as `getD k (n+1)`: the search can return `k = len(thresh)` only
when every entry is below `j`, which the source never reaches (`thresh[m]`
stays `n+1` until the final row fills it with a value processed earlier in
the same descending row). -/
def step (n i : Nat) (tl : List Nat × List (Option Cand)) (j : Nat) :
    List Nat × List (Option Cand) :=
  let t := tl.1
  let l := tl.2
  let k := bisectLeft (fun mid => t.getD mid 0 < j) 0 t.length
  if j < t.getD k (n + 1) then
    (t.set k j, l.set k (some (Cand.mk i j (l.getD (k - 1) none))))
  else tl

/-- hs.py `LCS` (lines 18-73): sort both sequences with descending-position
tie-break, merge-scan them into `matchlist`, run the THRESH main loop, and
recover the pairs from the link chains in reverse. -/
def LCS [LinearOrder α] (A B : List α) : List (Nat × Nat) :=
  let m := A.length
  let n := B.length
  let aa := List.insertionSort keyDesc (List.zip A (List.range' 1 m))
  let bb := List.insertionSort keyDesc (List.zip B (List.range' 1 n))
  let ml := matchScan aa bb (List.replicate (m + 1) [])
  let init : List Nat × List (Option Cand) :=
    (threshInit m n, List.replicate (m + 1) none)
  let tl := (List.range' 1 m).foldl
    (fun tl i => (ml.getD i []).foldl (step n i) tl) init
  let k := finalK tl.1 m n
  (chainPairs (tl.2.getD k none)).reverse

end hs

namespace kc

/-- The local loop state of one row of kc.py's main loop (lines 48-68):
`k`, `temp`, `r`, `c` plus the shared `thresh` and `link` arrays. -/
structure RowState where
  t : List Nat
  l : List (Option Cand)
  k : Nat
  temp : Nat
  r : Nat
  c : Option Cand

/-- `while j > thresh[k]: k += 1` (kc.py lines 56-57).  Python indexes
`thresh[k]` directly; the scan provably stays within the array (the slot
above the last filled one holds the `n+1` sentinel), and the embedding
reads past the end as the same sentinel, which stops the loop. -/
def advanceK (t : List Nat) (n j : Nat) : Nat → Nat → Nat
  | 0, k => k
  | fuel + 1, k => if j > t.getD k (n + 1) then advanceK t n j fuel (k + 1) else k

/-- Processing of one candidate `j` of `matchlist[i]` (kc.py lines 53-67):
skip it unless `j > temp`, advance `k`, capture `temp = thresh[k]` before
any overwrite, and on improvement store `j`, buffering the new chain in `c`
and flushing the previous buffer to `link[r]`.  `prev_c = link[k-1]` is
read before `link[r] = c` is stored, as in the source. -/
def step (n i : Nat) (s : RowState) (j : Nat) : RowState :=
  if j > s.temp then
    let k1 := advanceK s.t n j (s.t.length + 1) (s.k + 1)
    let temp1 := s.t.getD k1 (n + 1)
    if j < temp1 then
      let prev_c := s.l.getD (k1 - 1) none
      { t := s.t.set k1 j, l := s.l.set s.r s.c, k := k1, temp := temp1,
        r := k1, c := some (Cand.mk i j prev_c) }
    else { s with k := k1, temp := temp1 }
  else s

/-- One row `i` of kc.py's main loop (lines 48-68): initialize the local
state (`k = temp = r = 0`, `c = link[0]`), process the candidates in
ascending order, and flush the buffered chain with `link[r] = c`. -/
def row (n : Nat) (ml : List (List Nat))
    (tl : List Nat × List (Option Cand)) (i : Nat) :
    List Nat × List (Option Cand) :=
  let s0 : RowState :=
    { t := tl.1, l := tl.2, k := 0, temp := 0, r := 0, c := tl.2.getD 0 none }
  let s := (ml.getD i []).foldl (step n i) s0
  (s.t, s.l.set s.r s.c)

/-- kc.py `LCS` (lines 18-83): like hs.py but with ascending-position
sorting and the Kuo–Cross pointer (`temp`/`k`) optimization. -/
def LCS [LinearOrder α] (A B : List α) : List (Nat × Nat) :=
  let m := A.length
  let n := B.length
  let aa := List.insertionSort keyAsc (List.zip A (List.range' 1 m))
  let bb := List.insertionSort keyAsc (List.zip B (List.range' 1 n))
  let ml := matchScan aa bb (List.replicate (m + 1) [])
  let init : List Nat × List (Option Cand) :=
    (threshInit m n, List.replicate (m + 1) none)
  let tl := (List.range' 1 m).foldl (row n ml) init
  let k := finalK tl.1 m n
  (chainPairs (tl.2.getD k none)).reverse

end kc

namespace hm

/-- Sort order of hm.py line 48: `key=lambda t: (t[1], t[0])` — the rank
table `V` of `(position, value)` pairs is sorted by value, then position
(keys are distinct: positions occur once; see the remark at `keyDesc`). -/
def keyV [LinearOrder α] (x y : Nat × α) : Prop :=
  x.2 < y.2 ∨ (x.2 = y.2 ∧ x.1 ≤ y.1)

instance keyVDec [LinearOrder α] : DecidableRel (keyV (α := α)) := fun x y =>
  inferInstanceAs (Decidable (x.2 < y.2 ∨ (x.2 = y.2 ∧ x.1 ≤ y.1)))

/-- The root placeholder used when a `K` slot is read: Python keeps `None`
in the untouched slots of `K`, but only slots `0..k+1` are ever read and
those are always set, so the embedding may fill untouched slots with the
`(0, 0, None)` root. -/
def root : Cand := Cand.mk 0 0 none

/-- The inner loop of hm.py `merge` (lines 120-186), carrying
`(K, k, r, c, p)`.  One iteration: `j := E[p][0]`; binary-search
`K[r..k+1]` for `s` and adjust it; if `K[s][1] < j < K[s+1][1]` record the
new candidate — holding the old `K[s]` before `K[r]` is overwritten, as the
source is careful to do — and grow `K` when `s == k` (then break);
otherwise move to the next position of the equivalence class, stopping at
the end-of-class flag `E[p][1]`.  Fuel: `p` only increases, and the class
ends at `E`'s final `True` flag, so `E.length + 1` suffices. -/
def mergeLoop (E : List (Nat × Bool)) (i : Nat) :
    Nat → List Cand → Nat → Nat → Cand → Nat → List Cand × Nat × Nat × Cand
  | 0, K, k, r, c, _ => (K, k, r, c)
  | fuel + 1, K, k, r, c, p =>
    let j := (E.getD p (0, true)).1
    let s0 := bisectLeft (fun mid => (K.getD mid root).j < j) r (k + 1)
    let s := if s0 = r then s0 else s0 - 1
    if (K.getD s root).j < j ∧ j < (K.getD (s + 1) root).j then
      let temp_Ksub_s := K.getD s root
      let K1 := K.set r c
      let r1 := s + 1
      let c1 := Cand.mk i j (some temp_Ksub_s)
      if s = k then
        (K1.set (k + 2) (K1.getD (k + 1) root), k + 1, r1, c1)
      else
        if (E.getD p (0, true)).2 then (K1, k, r1, c1)
        else mergeLoop E i fuel K1 k r1 c1 (p + 1)
    else
      if (E.getD p (0, true)).2 then (K, k, r, c)
      else mergeLoop E i fuel K k r c (p + 1)

/-- hm.py `merge` (lines 120-190): steps #1 (`r, c = 0, K[0]`), the loop,
and #7 (`K[r] = c`). -/
def merge (E : List (Nat × Bool)) (K : List Cand) (k i p : Nat) :
    List Cand × Nat :=
  let res := mergeLoop E i (E.length + 1) K k 0 (K.getD 0 root) p
  (res.1.set res.2.2.1 res.2.2.2, res.2.1)

/-- Step #8 of hm.py `LCS` (lines 98-102): `while c is not None:
J[c[0]] = c[1]; c = c[2]`. -/
def walkJ : Cand → List Nat → List Nat
  | .mk i j prev, J =>
    let J1 := J.set i j
    match prev with
    | none => J1
    | some p => walkJ p J1

/-- Steps #1-#2 of hm.py `LCS`: `V = list(zip(range(1, n+1), B))`, the
sentinel inserted if `V` is non-empty, then `V.sort(key=lambda t: (t[1],
t[0]))`. -/
def Vof [LinearOrder α] (sent : α) (B : List α) : List (Nat × α) :=
  let V0 : List (Nat × α) := List.zip (List.range' 1 B.length) B
  let V1 := if V0 = [] then V0 else (0, sent) :: V0
  List.insertionSort keyV V1

/-- Step #3 of hm.py `LCS`: `E = [(V[j][0], j == n or V[j][1] != V[j+1][1])
for j in range(1, n+1)]` then `E.insert(0, (0, True))`.  `j == n`
short-circuits the out-of-range `V[j+1]` read, which getD makes total. -/
def Eof [LinearOrder α] (sent : α) (B : List α) : List (Nat × Bool) :=
  let n := B.length
  let V := Vof sent B
  (0, true) :: (List.range' 1 n).map (fun jj =>
    ((V.getD jj (0, sent)).1,
      jj == n || decide ((V.getD jj (0, sent)).2 ≠ (V.getD (jj + 1) (0, sent)).2)))

/-- Step #4 of hm.py `LCS`: `P[i]` by binary search of `V[1:]` for
`A[i-1]` (lines 57-81). -/
def Pof [LinearOrder α] (sent : α) (A B : List α) : List Nat :=
  let V := Vof sent B
  (List.range (A.length + 1)).map (fun i =>
    if i = 0 then 0
    else
      let x := A.getD (i - 1) sent
      let j := bisectLeft (fun mid => decide ((V.getD mid (0, sent)).2 < x)) 1 V.length
      if j < V.length ∧ (V.getD j (0, sent)).2 = x then j else 0)

/-- hm.py `LCS` (lines 29-111), generic over an ordered element type.  The
sentinel value prepended to `V` before sorting (`''` for `str` inputs, `0`
for `int` inputs, hm.py lines 36-44, embedded separately as `hmSetup`) is
taken as the argument `sent`; the type check itself lives in `hmSetup`. -/
def LCS [LinearOrder α] (sent : α) (A B : List α) : List (Nat × Nat) :=
  let m := A.length
  let n := B.length
  -- #1-#4
  let E := Eof sent B
  let P := Pof sent A B
  -- #5: K = [None] * (min(m, n) + 2); K[0], K[1] = [(0,0,None), (m+1,n+1,None)]
  let K0 : List Cand := (List.replicate (min m n + 2) root).set 1 (Cand.mk (m + 1) (n + 1) none)
  -- #6: merge each row with a match
  let Kk := (List.range' 1 m).foldl (fun Kk i =>
    if P.getD i 0 ≠ 0 then merge E Kk.1 Kk.2 i (P.getD i 0) else Kk) (K0, 0)
  -- #7, #8: collect J from the chain at K[k]
  let c := Kk.1.getD Kk.2 root
  let J := walkJ c (List.replicate (m + 1) 0)
  (List.range (m + 1)).filterMap (fun i =>
    if J.getD i 0 ≠ 0 then some (i, J.getD i 0) else none)

end hm

/-! ## Claim theorems: concrete evaluations and the diff routine -/

/-- C2: the claim that every engine's match-list length equals the true
(DP-computed) LCS length fails on the code: hm.py inserts the sentinel
`(0, 0)` before sorting the rank table, which is not minimal for negative
int elements, so for `A = B = [-5]` the sorted table misplaces the sentinel
and the binary search of step #4 misses the match: hm returns an empty
match list although the true LCS length is 1. -/
theorem hm_misses_match_on_negative_ints :
    hm.LCS (0 : Int) [-5] [-5] = [] ∧ lcsLen ([-5] : List Int) [-5] = 1 := by
  decide

/-- C3: cross-engine agreement on length fails on the code: on the int
sequences `A = B = [-5]` hm.py returns a match list of length 0 while
hs.py and kc.py both return length 1 (see `hm_misses_match_on_negative_ints`
for the cause). -/
theorem engine_lengths_disagree_on_negative_ints :
    (hm.LCS (0 : Int) [-5] [-5]).length = 0 ∧
    (hs.LCS ([-5] : List Int) [-5]).length = 1 ∧
    (kc.LCS ([-5] : List Int) [-5]).length = 1 := by
  decide

/-- C4: whenever the match-list length equals both sequence lengths, the
diff routine returns before printing anything (diff.py lines 57-58): no
hunks and no `---`/`+++` header lines. -/
theorem diff_silent_when_match_count_equals_both_lengths
    (hdrA hdrB : String) (a b : List String) (lcs : List (Nat × Nat))
    (h1 : lcs.length = a.length) (h2 : a.length = b.length) :
    (Diff.diff hdrA hdrB a b lcs).1 = [] := by
  unfold Diff.diff
  simp [h1, h2]

/-- Witness for `diff_silent_when_match_count_equals_both_lengths` at a
concrete identical-input instance. -/
theorem diff_silent_witness :
    (Diff.diff "h1" "h2" ["a"] ["a"] [(1, 1)]).1 = [] :=
  diff_silent_when_match_count_equals_both_lengths "h1" "h2" ["a"] ["a"] [(1, 1)] rfl rfl

/-- C6: for `A = []`, `B = ["a"]` every engine returns the empty match
list, and the diff routine emits exactly one hunk with body `+a` — but its
header line is `@@ -1,0 +1 @@`, not the claimed (and GNU-diff standard)
`@@ -0,0 +1 @@`: diff.py line 85 adds 1 to the dummy start coordinate even
when the A-side range is empty. -/
theorem diff_empty_vs_nonempty_emits_header_one_zero :
    hs.LCS ([] : List String) ["a"] = [] ∧
    kc.LCS ([] : List String) ["a"] = [] ∧
    hm.LCS "" ([] : List String) ["a"] = [] ∧
    (Diff.diff "--- a" "+++ b" [] ["a"] []).1 =
      ["--- a", "+++ b", "@@ -1,0 +1 @@", "+a"] := by
  decide

/-- C7 counterexample: the hunk builder does not work on a copy: after
`Diff.diff` runs on `A = []`, `B = ["a"]` with the engine's empty match
list, the `lcs` list holds the dummy- and sentinel-augmented value, not
the original `[]` the engine returned. -/
theorem diff_lcs_list_mutated_counterexample :
    (Diff.diff "h1" "h2" [] ["a"] []).2 =
      [(0, 0), (1, 2), (999999999, 999999999)] ∧
    (Diff.diff "h1" "h2" [] ["a"] []).2 ≠ [] := by
  decide

/-- C7 amended: whenever differences exist, diff.py mutates the match list
returned by the engine in place (lines 64-68), so after the routine
finishes the list holds `(0,0)` prepended and `(|A|+1, |B|+1)` and the
oversized sentinel appended; it is not an unchanged copy. -/
theorem diff_augments_lcs_in_place
    (hdrA hdrB : String) (a b : List String) (lcs : List (Nat × Nat))
    (h : ¬(lcs.length = a.length ∧ a.length = b.length)) :
    (Diff.diff hdrA hdrB a b lcs).2 =
      ((0, 0) :: lcs.map (fun p => ((p.1 : Int), (p.2 : Int)))) ++
        [((a.length : Int) + 1, (b.length : Int) + 1), (999999999, 999999999)] := by
  unfold Diff.diff
  simp [h]

/-- Witness for `diff_augments_lcs_in_place` at a concrete input. -/
theorem diff_augments_lcs_in_place_witness :
    (Diff.diff "h1" "h2" [] ["a"] []).2 =
      ((0, 0) :: ([] : List (Nat × Nat)).map (fun p => ((p.1 : Int), (p.2 : Int)))) ++
        [(((([] : List String)).length : Int) + 1, ((["a"].length : Int)) + 1),
          (999999999, 999999999)] :=
  diff_augments_lcs_in_place "h1" "h2" [] ["a"] [] (by decide)

/-- C8: in every emitted hunk header (diff.py line 90 formats both sides
with `frng`), a side's range is the bare start exactly when its count is
1, and `start,count` otherwise. -/
theorem frng_omits_count_iff_one (i j : Int) :
    (Diff.frng i j = toString i ↔ j = 1) ∧
    (j ≠ 1 → Diff.frng i j = toString i ++ "," ++ toString j) := by
  refine ⟨⟨fun h => ?_, fun h => by simp [Diff.frng, h]⟩, fun h => by simp [Diff.frng, h]⟩
  by_contra hj
  rw [Diff.frng, if_neg hj] at h
  have hlen := congrArg String.length h
  rw [String.length_append, String.length_append] at hlen
  have hone : (",").length = 1 := rfl
  rw [hone] at hlen
  omega

/-- C5 counterexample: the input `A = [1]`, `B = ["a"]` mixes int and str
elements (not mutually order-comparable, `pyComparable` is false), yet
hm.py's pre-algorithmic validation (lines 36-44, embedded as `hmSetup`)
accepts it: the check inspects only `B[0]`, so the incomparability is not
detected before algorithmic work begins (it surfaces later, inside the
step-#4 binary search, as a plain `TypeError`). -/
theorem hm_validation_accepts_incomparable_input :
    pyComparable (Val.int 1) (Val.str "a") = false ∧
    hmSetup [Val.str "a"] = Except.ok [(0, Val.str ""), (1, Val.str "a")] :=
  ⟨rfl, rfl⟩

/-- C5 amended: no engine detects incomparable elements before algorithmic
work in general; the only pre-algorithmic check in any engine is hm.py's,
and it inspects `B`'s first element alone: whether it raises is unchanged
by replacing the rest of `B` (and `A` is never looked at — `hmSetup` does
not even take it); an empty `B` is always accepted. -/
theorem hm_validation_only_first_element (v : Val) (B B' : List Val) :
    ((∃ e, hmSetup (v :: B) = Except.error e) ↔
      (∃ e, hmSetup (v :: B') = Except.error e)) ∧
    hmSetup ([] : List Val) = Except.ok [] := by
  refine ⟨?_, rfl⟩
  cases v <;> simp [hmSetup, List.range', Val.isStr, Val.isInt]

/-- C10: hm.py's validation raises `TypeError` exactly when `B` is
non-empty and `B`'s first element is neither a str nor an int; the
condition mentions nothing else — not `A` (which `hmSetup` does not take)
and not `B`'s later elements. -/
theorem hmSetup_typeerror_iff (B : List Val) :
    hmSetup B = Except.error PyErr.typeError ↔
      ∃ v B', B = v :: B' ∧ v.isStr = false ∧ v.isInt = false := by
  cases B with
  | nil => simp [hmSetup]
  | cons v B' =>
    cases v <;> simp [hmSetup, List.range', Val.isStr, Val.isInt]

/-! ## Threshold-array invariants (C9) -/

theorem getD_irrel {α : Type _} {t : List α} {x : Nat} (h : x < t.length) (d1 d2 : α) :
    t.getD x d1 = t.getD x d2 := by
  simp [List.getD_eq_getElem?_getD, List.getElem?_eq_getElem h]

theorem getD_set_self {α : Type _} (t : List α) (k : Nat) (v d : α) (h : k < t.length) :
    (t.set k v).getD k d = v := by
  simp [List.getD_eq_getElem?_getD, List.getElem?_set_self h]

theorem getD_set_ne {α : Type _} (t : List α) {k x : Nat} (v d : α) (h : k ≠ x) :
    (t.set k v).getD x d = t.getD x d := by
  simp [List.getD_eq_getElem?_getD, List.getElem?_set_ne h]

/-- Boundary facts of the bisect loop, by induction on the fuel: the result
lies in `[lo, hi]`, the probe just below it (if inside the range) tested
true, and the probe at it (if inside the range) tested false. -/
theorem bisectLeftAux_spec (lt : Nat → Bool) (fuel : Nat) :
    ∀ lo hi, lo ≤ hi → hi - lo ≤ fuel →
    lo ≤ bisectLeftAux lt fuel lo hi ∧ bisectLeftAux lt fuel lo hi ≤ hi ∧
    (lo < bisectLeftAux lt fuel lo hi → lt (bisectLeftAux lt fuel lo hi - 1) = true) ∧
    (bisectLeftAux lt fuel lo hi < hi → lt (bisectLeftAux lt fuel lo hi) = false) := by
  induction fuel with
  | zero =>
    intro lo hi hle hfuel
    have : hi = lo := by omega
    subst this
    simp [bisectLeftAux]
  | succ fuel ih =>
    intro lo hi hle hfuel
    by_cases hlt : lo < hi
    · have hmidlo : lo ≤ (lo + hi) / 2 := by omega
      have hmidhi : (lo + hi) / 2 < hi := by omega
      simp only [bisectLeftAux, if_pos hlt]
      by_cases hp : lt ((lo + hi) / 2)
      · simp only [if_pos hp]
        have h1 := ih ((lo + hi) / 2 + 1) hi (by omega) (by omega)
        refine ⟨by omega, h1.2.1, fun hl => ?_, h1.2.2.2⟩
        rcases Nat.lt_or_ge ((lo + hi) / 2 + 1) (bisectLeftAux lt fuel ((lo + hi) / 2 + 1) hi) with h | h
        · exact h1.2.2.1 h
        · have : bisectLeftAux lt fuel ((lo + hi) / 2 + 1) hi = (lo + hi) / 2 + 1 := by omega
          rw [this]
          simpa using hp
      · simp only [if_neg hp]
        have h1 := ih lo ((lo + hi) / 2) (by omega) (by omega)
        refine ⟨h1.1, by omega, h1.2.2.1, fun hl => ?_⟩
        rcases Nat.lt_or_ge (bisectLeftAux lt fuel lo ((lo + hi) / 2)) ((lo + hi) / 2) with h | h
        · exact h1.2.2.2 h
        · have : bisectLeftAux lt fuel lo ((lo + hi) / 2) = (lo + hi) / 2 := by omega
          rw [this]
          simpa using hp
    · have : hi = lo := by omega
      subst this
      simp [bisectLeftAux]

/-- The same boundary facts for `bisectLeft` (fuel `hi - lo` suffices). -/
theorem bisectLeft_spec (lt : Nat → Bool) (lo hi : Nat) (hle : lo ≤ hi) :
    lo ≤ bisectLeft lt lo hi ∧ bisectLeft lt lo hi ≤ hi ∧
    (lo < bisectLeft lt lo hi → lt (bisectLeft lt lo hi - 1) = true) ∧
    (bisectLeft lt lo hi < hi → lt (bisectLeft lt lo hi) = false) :=
  bisectLeftAux_spec lt (hi - lo) lo hi hle (Nat.le_refl _)

/-- The invariant of the threshold array (spec §3 "Threshold Array", the
object of C9): the array keeps its `m+1` length, entry 0 is the sentinel
0, entries are monotonically non-decreasing (reading past the end as the
unfilled sentinel `n+1`), and every later entry is either the unfilled
sentinel `n+1` or a genuine B-position in `1..n` — so the filled entries
form a prefix and the unfilled tail is exactly the sentinel. -/
def threshInv (m n : Nat) (t : List Nat) : Prop :=
  t.length = m + 1 ∧
  t.getD 0 0 = 0 ∧
  (∀ k1 k2, k1 ≤ k2 → t.getD k1 (n + 1) ≤ t.getD k2 (n + 1)) ∧
  (∀ k, 1 ≤ k → t.getD k (n + 1) = n + 1 ∨
    (1 ≤ t.getD k (n + 1) ∧ t.getD k (n + 1) ≤ n))

theorem threshInit_inv (m n : Nat) : threshInv m n (threshInit m n) := by
  have hlen : (threshInit m n).length = m + 1 := by
    simp [threshInit]
  have hget : ∀ x, (threshInit m n).getD x (n + 1) = if x = 0 then 0 else n + 1 := by
    intro x
    by_cases hx : x = 0
    · subst hx
      rw [threshInit, getD_set_self _ _ _ _ (by simp), if_pos rfl]
    · rw [threshInit, getD_set_ne _ _ _ (fun h => hx h.symm), if_neg hx]
      simp only [List.getD_eq_getElem?_getD, List.getElem?_replicate]
      split <;> simp
  refine ⟨hlen, ?_, ?_, ?_⟩
  · rw [getD_irrel (by rw [hlen]; omega) 0 (n + 1), hget 0]
    simp
  · intro k1 k2 h12
    rw [hget, hget]
    by_cases h1 : k1 = 0 <;> by_cases h2 : k2 = 0 <;> simp [h1, h2] <;> omega
  · intro k hk
    rw [hget, if_neg (by omega)]
    left
    rfl

/-- Writing `j` into slot `k` of a threshold array keeps the invariant,
provided the slot below is already strictly below `j` and the slot itself
at least `j` (the situation both engines are in when they update). -/
theorem threshInv_set (m n : Nat) (t : List Nat) (k j : Nat)
    (ht : threshInv m n t) (hj1 : 1 ≤ j) (hjn : j ≤ n) (hk1 : 1 ≤ k)
    (hbelow : t.getD (k - 1) (n + 1) < j) (habove : j ≤ t.getD k (n + 1)) :
    threshInv m n (t.set k j) := by
  obtain ⟨hlen, h0, hmono, hbnd⟩ := ht
  by_cases hkl : k < t.length
  · have hget : ∀ x d, (t.set k j).getD x d = if x = k then j else t.getD x d := by
      intro x d
      by_cases hx : x = k
      · subst hx
        rw [getD_set_self _ _ _ _ hkl, if_pos rfl]
      · rw [getD_set_ne _ _ _ (fun h => hx h.symm), if_neg hx]
    refine ⟨by simp [hlen], ?_, ?_, ?_⟩
    · rw [hget, if_neg (by omega)]
      exact h0
    · intro k1 k2 h12
      rw [hget, hget]
      by_cases h1 : k1 = k <;> by_cases h2 : k2 = k
      · simp [h1, h2]
      · rw [if_pos h1, if_neg h2]
        have hk2 : k ≤ k2 := by omega
        exact le_trans habove (hmono k k2 hk2)
      · rw [if_neg h1, if_pos h2]
        have hk1' : k1 ≤ k - 1 := by omega
        exact le_of_lt (lt_of_le_of_lt (le_trans (hmono k1 (k - 1) hk1') (le_refl _)) hbelow)
      · rw [if_neg h1, if_neg h2]
        exact hmono k1 k2 h12
    · intro x hx
      rw [hget]
      by_cases hxk : x = k
      · rw [if_pos hxk]
        right
        exact ⟨hj1, hjn⟩
      · rw [if_neg hxk]
        exact hbnd x hx
  · rw [List.set_eq_of_length_le (le_of_not_lt hkl)]
    exact ⟨hlen, h0, hmono, hbnd⟩

/-- One hs.py candidate update keeps the threshold invariant (for any
candidate `j` that is a genuine B-position, as all of `matchlist`'s are). -/
theorem hs_step_thresh (m n i j : Nat) (t : List Nat) (l : List (Option Cand))
    (ht : threshInv m n t) (hj1 : 1 ≤ j) (hjn : j ≤ n) :
    threshInv m n (hs.step n i (t, l) j).1 := by
  have hlen := ht.1
  have h0 := ht.2.1
  have hspec := bisectLeft_spec (fun mid => decide (t.getD mid 0 < j)) 0 t.length
    (Nat.zero_le _)
  simp only [hs.step]
  set k := bisectLeft (fun mid => decide (t.getD mid 0 < j)) 0 t.length with hkdef
  by_cases hguard : j < t.getD k (n + 1)
  · rw [if_pos hguard]
    have hk1 : 1 ≤ k := by
      by_contra hk0
      have hk0' : k = 0 := by omega
      have hhi : k < t.length := by rw [hk0', hlen]; omega
      have := hspec.2.2.2 hhi
      rw [hk0'] at this
      simp only [decide_eq_false_iff_not, not_lt] at this
      have h0' := h0
      rw [getD_irrel (by rw [hlen]; omega) 0 (n + 1)] at this h0'
      omega
    have hklen : k ≤ t.length := hspec.2.1
    have hbelow : t.getD (k - 1) (n + 1) < j := by
      have := hspec.2.2.1 (by omega)
      simp only [decide_eq_true_eq] at this
      rwa [getD_irrel (by omega) (n + 1) 0]
    exact threshInv_set m n t k j ⟨hlen, h0, ht.2.2.1, ht.2.2.2⟩ hj1 hjn hk1 hbelow
      (le_of_lt hguard)
  · rw [if_neg hguard]
    exact ht

namespace kc

/-- Boundary facts of the `while j > thresh[k]: k += 1` advance: the result
is at least the start, the entry at the result is at least `j`, and every
skipped entry is strictly below `j`. -/
theorem advanceK_spec (t : List Nat) (n j : Nat) (hjn : j ≤ n + 1) :
    ∀ fuel k, t.length + 1 - k ≤ fuel →
    k ≤ advanceK t n j fuel k ∧ j ≤ t.getD (advanceK t n j fuel k) (n + 1) ∧
    (∀ x, k ≤ x → x < advanceK t n j fuel k → t.getD x (n + 1) < j) := by
  intro fuel
  induction fuel with
  | zero =>
    intro k hfuel
    have hk : t.length ≤ k := by omega
    refine ⟨Nat.le_refl _, ?_, ?_⟩
    · simp only [advanceK]
      rw [List.getD_eq_default _ _ hk]
      exact hjn
    · intro x hx1 hx2
      simp only [advanceK] at hx2
      omega
  | succ fuel ih =>
    intro k hfuel
    simp only [advanceK]
    by_cases hc : j > t.getD k (n + 1)
    · rw [if_pos hc]
      have hkl : k < t.length := by
        by_contra hge
        rw [List.getD_eq_default _ _ (le_of_not_lt hge)] at hc
        omega
      have h1 := ih (k + 1) (by omega)
      refine ⟨by omega, h1.2.1, ?_⟩
      intro x hx1 hx2
      by_cases hxk : x = k
      · rw [hxk]; exact hc
      · exact h1.2.2 x (by omega) hx2
    · rw [if_neg hc]
      exact ⟨Nat.le_refl _, by omega, fun x hx1 hx2 => by omega⟩

/-- One kc.py candidate update keeps the threshold invariant, and keeps the
row fact that the entry at the current pointer `k` is at most `temp` (the
captured pre-overwrite value). -/
theorem step_thresh (m n i j : Nat) (s : RowState)
    (ht : threshInv m n s.t) (hj1 : 1 ≤ j) (hjn : j ≤ n)
    (htemp : s.t.getD s.k (n + 1) ≤ s.temp) :
    threshInv m n (step n i s j).t ∧
      (step n i s j).t.getD (step n i s j).k (n + 1) ≤ (step n i s j).temp := by
  simp only [step]
  by_cases hc : j > s.temp
  · rw [if_pos hc]
    have hspec := advanceK_spec s.t n j (by omega) (s.t.length + 1) (s.k + 1) (by omega)
    set k1 := advanceK s.t n j (s.t.length + 1) (s.k + 1) with hk1def
    by_cases hguard : j < s.t.getD k1 (n + 1)
    · rw [if_pos hguard]
      simp only
      have hk11 : 1 ≤ k1 := by omega
      have hbelow : s.t.getD (k1 - 1) (n + 1) < j := by
        by_cases heq : k1 = s.k + 1
        · rw [heq]
          simp only [Nat.add_sub_cancel]
          omega
        · exact hspec.2.2 (k1 - 1) (by omega) (by omega)
      have hinv := threshInv_set m n s.t k1 j ht hj1 hjn hk11 hbelow hspec.2.1
      refine ⟨hinv, ?_⟩
      by_cases hkl : k1 < s.t.length
      · rw [getD_set_self _ _ _ _ hkl]
        exact le_of_lt hguard
      · rw [List.set_eq_of_length_le (le_of_not_lt hkl)]
    · rw [if_neg hguard]
      exact ⟨ht, Nat.le_refl _⟩
  · rw [if_neg hc]
    exact ⟨ht, htemp⟩

end kc

/-- C9: the threshold array of the threshold-based engines satisfies its
invariant — entry 0 is the sentinel 0, the array is monotonically
non-decreasing in the index, and every entry above 0 is either the
unfilled sentinel `|B|+1` or a genuine B-position in `1..|B|` (so, with
monotonicity, the filled entries form a prefix and the unfilled tail is
exactly the sentinel) — after initialization (`threshInit`), and the
invariant is preserved by every update the main loops perform: one hs.py
candidate step (`hs.step`) and one kc.py candidate step (`kc.step`, whose
row precondition `thresh[k] ≤ temp` holds at row start with `k = temp = 0`
and is itself preserved). -/
theorem thresh_invariants (m n : Nat) :
    threshInv m n (threshInit m n) ∧
    (∀ i j t l, threshInv m n t → 1 ≤ j → j ≤ n →
      threshInv m n (hs.step n i (t, l) j).1) ∧
    (∀ i j s, threshInv m n s.t → 1 ≤ j → j ≤ n →
      s.t.getD s.k (n + 1) ≤ s.temp →
      threshInv m n (kc.step n i s j).t ∧
        (kc.step n i s j).t.getD (kc.step n i s j).k (n + 1) ≤ (kc.step n i s j).temp) := by
  refine ⟨threshInit_inv m n, ?_, ?_⟩
  · intro i j t l ht hj1 hjn
    exact hs_step_thresh m n i j t l ht hj1 hjn
  · intro i j s ht hj1 hjn htemp
    exact kc.step_thresh m n i j s ht hj1 hjn htemp

/-- Witness for `thresh_invariants`, applying it on a concrete array and
candidate (showing its inner hypotheses satisfiable). -/
theorem thresh_invariants_witness :
    threshInv 2 2 (threshInit 2 2) ∧
    threshInv 2 2 (hs.step 2 1 (threshInit 2 2, List.replicate 3 (none : Option Cand)) 1).1 :=
  ⟨(thresh_invariants 2 2).1,
    (thresh_invariants 2 2).2.1 1 1 (threshInit 2 2) (List.replicate 3 none)
      (thresh_invariants 2 2).1 (Nat.le_refl 1) (by omega)⟩

/-! ## Chain validity (C1): a valid chain yields a valid match list -/

/-- Validity of a chain link for sequences `A`, `B`: its pair is a 1-based
match of equal elements, and each link strictly dominates its predecessor
in both coordinates. -/
inductive Cand.Valid (A B : List α) : Cand → Prop where
  | root (i j : Nat) (hi1 : 1 ≤ i) (him : i ≤ A.length) (hj1 : 1 ≤ j)
      (hjn : j ≤ B.length) (hm : A.get? (i - 1) = B.get? (j - 1)) :
      Cand.Valid A B (Cand.mk i j none)
  | cons (i j : Nat) (p : Cand) (hi1 : 1 ≤ i) (him : i ≤ A.length) (hj1 : 1 ≤ j)
      (hjn : j ≤ B.length) (hm : A.get? (i - 1) = B.get? (j - 1))
      (hpi : p.i < i) (hpj : p.j < j) (hp : Cand.Valid A B p) :
      Cand.Valid A B (Cand.mk i j (some p))

/-- `Cand.Valid` on an optional link (`None` is vacuously valid). -/
def OptValid (A B : List α) : Option Cand → Prop
  | none => True
  | some c => c.Valid A B

theorem cand_pairs_head (c : Cand) : ∃ rest, c.pairs = (c.i, c.j) :: rest := by
  cases c with
  | mk i j prev =>
    cases prev with
    | none => exact ⟨[], by simp [Cand.pairs, Cand.i, Cand.j]⟩
    | some p => exact ⟨p.pairs, by simp [Cand.pairs, Cand.i, Cand.j]⟩

theorem chain_pairs_bounds (A B : List α) (c : Cand) (h : c.Valid A B) :
    ∀ p ∈ c.pairs,
      1 ≤ p.1 ∧ p.1 ≤ A.length ∧ 1 ≤ p.2 ∧ p.2 ≤ B.length ∧
        A.get? (p.1 - 1) = B.get? (p.2 - 1) := by
  induction h with
  | root i j hi1 him hj1 hjn hm =>
    intro p hp
    simp only [Cand.pairs, List.mem_singleton] at hp
    subst hp
    exact ⟨hi1, him, hj1, hjn, hm⟩
  | cons i j q hi1 him hj1 hjn hm hpi hpj hq ih =>
    intro p hp
    simp only [Cand.pairs, List.mem_cons] at hp
    rcases hp with hp | hp
    · subst hp
      exact ⟨hi1, him, hj1, hjn, hm⟩
    · exact ih p hp

theorem chain_pairs_desc (A B : List α) (c : Cand) (h : c.Valid A B) :
    List.Chain' (fun p q => q.1 < p.1 ∧ q.2 < p.2) c.pairs := by
  induction h with
  | root i j hi1 him hj1 hjn hm =>
    simp [Cand.pairs]
  | cons i j q hi1 him hj1 hjn hm hpi hpj hq ih =>
    obtain ⟨rest, hrest⟩ := cand_pairs_head q
    show List.Chain' _ ((i, j) :: q.pairs)
    rw [List.chain'_cons']
    refine ⟨?_, ih⟩
    intro y hy
    rw [hrest] at hy
    simp only [List.head?_cons, Option.mem_def, Option.some_inj] at hy
    subst hy
    exact ⟨hpi, hpj⟩

/-- A valid optional chain, recovered in reverse order the way hs.py and
kc.py step 4 do, is a valid LCS match list. -/
theorem optValid_reverse_valid (A B : List α) (c : Option Cand)
    (h : OptValid A B c) : ValidLCS A B (chainPairs c).reverse := by
  cases c with
  | none => exact ⟨by simp [chainPairs], by simp [chainPairs]⟩
  | some c =>
    constructor
    · intro p hp
      rw [List.mem_reverse] at hp
      exact chain_pairs_bounds A B c h p hp
    · rw [List.chain'_reverse]
      have := chain_pairs_desc A B c h
      refine this.imp ?_
      intro a b hab
      exact hab

/-! ## Sorting and zipping facts shared by hs.py and kc.py (C1) -/

instance keyDescTotal [LinearOrder α] : IsTotal (α × Nat) keyDesc :=
  ⟨fun x y => by
    unfold keyDesc
    rcases lt_trichotomy x.1 y.1 with h | h | h
    · exact Or.inl (Or.inl h)
    · rcases le_total y.2 x.2 with h2 | h2
      · exact Or.inl (Or.inr ⟨h, h2⟩)
      · exact Or.inr (Or.inr ⟨h.symm, h2⟩)
    · exact Or.inr (Or.inl h)⟩

instance keyDescTrans [LinearOrder α] : IsTrans (α × Nat) keyDesc :=
  ⟨fun x y z hxy hyz => by
    unfold keyDesc at *
    rcases hxy with h1 | ⟨h1, h1'⟩ <;> rcases hyz with h2 | ⟨h2, h2'⟩
    · exact Or.inl (lt_trans h1 h2)
    · exact Or.inl (h2 ▸ h1)
    · exact Or.inl (h1 ▸ h2)
    · exact Or.inr ⟨h1.trans h2, le_trans h2' h1'⟩⟩

instance keyAscTotal [LinearOrder α] : IsTotal (α × Nat) keyAsc :=
  ⟨fun x y => by
    unfold keyAsc
    rcases lt_trichotomy x.1 y.1 with h | h | h
    · exact Or.inl (Or.inl h)
    · rcases le_total x.2 y.2 with h2 | h2
      · exact Or.inl (Or.inr ⟨h, h2⟩)
      · exact Or.inr (Or.inr ⟨h.symm, h2⟩)
    · exact Or.inr (Or.inl h)⟩

instance keyAscTrans [LinearOrder α] : IsTrans (α × Nat) keyAsc :=
  ⟨fun x y z hxy hyz => by
    unfold keyAsc at *
    rcases hxy with h1 | ⟨h1, h1'⟩ <;> rcases hyz with h2 | ⟨h2, h2'⟩
    · exact Or.inl (lt_trans h1 h2)
    · exact Or.inl (h2 ▸ h1)
    · exact Or.inl (h1 ▸ h2)
    · exact Or.inr ⟨h1.trans h2, le_trans h1' h2'⟩⟩

/-- Membership of the zipped `(value, 1-based position)` lists hs.py and
kc.py build: an element is an actual value of `L` at its position. -/
theorem mem_zip_range' (L : List α) :
    ∀ (s : Nat) (p : α × Nat), p ∈ List.zip L (List.range' s L.length) ↔
      ∃ idx, idx < L.length ∧ L.get? idx = some p.1 ∧ p.2 = s + idx := by
  induction L with
  | nil => simp
  | cons a L ih =>
    intro s p
    simp only [List.length_cons, List.range', List.zip_cons_cons, List.mem_cons]
    constructor
    · intro h
      rcases h with h | h
      · subst h
        exact ⟨0, by omega, rfl, by omega⟩
      · obtain ⟨idx, hidx, hget, hpos⟩ := (ih (s + 1) p).mp h
        exact ⟨idx + 1, by omega, by simpa using hget, by omega⟩
    · rintro ⟨idx, hidx, hget, hpos⟩
      cases idx with
      | zero =>
        left
        simp only [List.get?] at hget
        cases p
        simp at hget hpos ⊢
        exact ⟨hget.symm, by omega⟩
      | succ idx =>
        right
        refine (ih (s + 1) p).mpr ⟨idx, by omega, by simpa using hget, by omega⟩

/-- Pairwise-distinct positions (second components): holds for the zipped
lists because each 1-based position occurs exactly once. -/
def posDistinct (l : List (α × Nat)) : Prop :=
  List.Pairwise (fun a b => a.2 ≠ b.2) l

/-- Values are non-decreasing along the list (consequence of either sort
order; the merge-scan only compares values). -/
def valMono [LinearOrder α] (l : List (α × Nat)) : Prop :=
  List.Pairwise (fun a b : α × Nat => a.1 ≤ b.1) l

theorem valMono_of_keyDesc [LinearOrder α] {l : List (α × Nat)}
    (h : List.Pairwise keyDesc l) : valMono l :=
  h.imp (fun hab => by
    rcases hab with h1 | ⟨h1, _⟩
    · exact le_of_lt h1
    · exact le_of_eq h1)

theorem valMono_of_keyAsc [LinearOrder α] {l : List (α × Nat)}
    (h : List.Pairwise keyAsc l) : valMono l :=
  h.imp (fun hab => by
    rcases hab with h1 | ⟨h1, _⟩
    · exact le_of_lt h1
    · exact le_of_eq h1)

theorem posDistinct_zip (L : List α) (s : Nat) :
    posDistinct (List.zip L (List.range' s L.length)) := by
  have hnodup : (List.map Prod.snd (List.zip L (List.range' s L.length))).Nodup := by
    rw [List.map_snd_zip _ _ (by rw [List.length_range'])]
    exact List.nodup_range' s L.length
  rw [List.Nodup, List.pairwise_map] at hnodup
  exact hnodup

theorem posDistinct_perm {l l' : List (α × Nat)} (hp : l.Perm l')
    (h : posDistinct l) : posDistinct l' :=
  (List.Perm.pairwise_iff (fun hxy => Ne.symm hxy) hp).mp h

/-- On a value-sorted list whose values are all at least `v`, filtering for
value `v` is the same as taking the leading run (the inner
`while bb[bi][0] == bv` loop of the merge-scan collects exactly the
filtered set). -/
theorem filter_eq_takeWhile_val [LinearOrder α] (v : α) :
    ∀ l : List (α × Nat), valMono l → (∀ q ∈ l, v ≤ q.1) →
      l.filter (fun q => decide (q.1 = v)) = l.takeWhile (fun q => decide (q.1 = v))
  | [], _, _ => rfl
  | y :: l, hmono, hge => by
    by_cases hy : y.1 = v
    · have hyd : (decide (y.1 = v)) = true := by simp [hy]
      rw [List.filter_cons, List.takeWhile_cons, if_pos hyd, if_pos hyd,
        filter_eq_takeWhile_val v l (List.Pairwise.of_cons hmono)
          (fun q hq => hge q (List.mem_cons_of_mem _ hq))]
    · simp only [List.filter_cons, List.takeWhile_cons]
      rw [if_neg (by simpa using hy), if_neg (by simpa using hy)]
      rw [List.filter_eq_nil_iff.mpr ?_]
      intro q hq
      have h1 : y.1 ≤ q.1 := (List.pairwise_cons.mp hmono).1 q hq
      have h2 : v ≤ y.1 := hge y (List.mem_cons_self _ _)
      have h3 : v < y.1 := lt_of_le_of_ne h2 (fun h => hy h.symm)
      simp only [decide_eq_true_eq]
      exact fun h => absurd (h ▸ (lt_of_lt_of_le h3 h1)) (lt_irrefl _)

/-- The positions of the value-`v` entries of a `keyDesc`-sorted
position-distinct list are strictly decreasing (the hs.py matchlist
order). -/
theorem filtered_positions_desc [LinearOrder α] (v : α) (l : List (α × Nat))
    (hs : List.Pairwise keyDesc l) (hd : posDistinct l) :
    List.Pairwise (fun x y : Nat => y < x)
      ((l.filter (fun q => decide (q.1 = v))).map (·.2)) := by
  rw [List.pairwise_map]
  have hcomb : List.Pairwise (fun a b => keyDesc a b ∧ a.2 ≠ b.2)
      (l.filter (fun q => decide (q.1 = v))) :=
    List.Pairwise.sublist (List.filter_sublist l) (hs.and hd)
  refine hcomb.imp_of_mem ?_
  intro a b ha hb hab
  have hav : a.1 = v := by simpa using (List.mem_filter.mp ha).2
  have hbv : b.1 = v := by simpa using (List.mem_filter.mp hb).2
  rcases hab.1 with h1 | ⟨_, h2⟩
  · rw [hav, hbv] at h1
    exact absurd h1 (lt_irrefl v)
  · exact lt_of_le_of_ne h2 (fun h => hab.2 h.symm)

/-- The positions of the value-`v` entries of a `keyAsc`-sorted
position-distinct list are strictly increasing (the kc.py matchlist
order). -/
theorem filtered_positions_asc [LinearOrder α] (v : α) (l : List (α × Nat))
    (hs : List.Pairwise keyAsc l) (hd : posDistinct l) :
    List.Pairwise (fun x y : Nat => x < y)
      ((l.filter (fun q => decide (q.1 = v))).map (·.2)) := by
  rw [List.pairwise_map]
  have hcomb : List.Pairwise (fun a b => keyAsc a b ∧ a.2 ≠ b.2)
      (l.filter (fun q => decide (q.1 = v))) :=
    List.Pairwise.sublist (List.filter_sublist l) (hs.and hd)
  refine hcomb.imp_of_mem ?_
  intro a b ha hb hab
  have hav : a.1 = v := by simpa using (List.mem_filter.mp ha).2
  have hbv : b.1 = v := by simpa using (List.mem_filter.mp hb).2
  rcases hab.1 with h1 | ⟨_, h2⟩
  · rw [hav, hbv] at h1
    exact absurd h1 (lt_irrefl v)
  · exact lt_of_le_of_ne h2 hab.2

/-! ## Characterizing the merge-scan's matchlist (C1) -/

theorem length_foldl_set (js : List Nat) :
    ∀ (run : List (α × Nat)) (acc : List (List Nat)),
      (run.foldl (fun acc q => acc.set q.2 js) acc).length = acc.length
  | [], _ => rfl
  | q :: run, acc => by
    rw [List.foldl_cons, length_foldl_set js run (acc.set q.2 js), List.length_set]

theorem foldl_set_getD_not_mem (js : List Nat) :
    ∀ (run : List (α × Nat)) (acc : List (List Nat)) (x : Nat),
      (∀ q ∈ run, q.2 ≠ x) →
      (run.foldl (fun acc q => acc.set q.2 js) acc).getD x [] = acc.getD x []
  | [], _, _, _ => rfl
  | q :: run, acc, x, h => by
    rw [List.foldl_cons,
      foldl_set_getD_not_mem js run (acc.set q.2 js) x
        (fun q' hq' => h q' (List.mem_cons_of_mem _ hq')),
      getD_set_ne _ _ _ (h q (List.mem_cons_self _ _))]

theorem foldl_set_getD_mem (js : List Nat) :
    ∀ (run : List (α × Nat)) (acc : List (List Nat)) (x : Nat),
      (∃ q ∈ run, q.2 = x) → x < acc.length →
      (run.foldl (fun acc q => acc.set q.2 js) acc).getD x [] = js
  | [], _, _, h, _ => by simp at h
  | q :: run, acc, x, h, hx => by
    rw [List.foldl_cons]
    by_cases hmem : ∃ q' ∈ run, q'.2 = x
    · exact foldl_set_getD_mem js run (acc.set q.2 js) x hmem (by simpa using hx)
    · have hqx : q.2 = x := by
        obtain ⟨q', hq', hq'x⟩ := h
        rcases List.mem_cons.mp hq' with h' | h'
        · rw [h'] at hq'x
          exact hq'x
        · exact absurd ⟨q', h', hq'x⟩ hmem
      rw [foldl_set_getD_not_mem js run (acc.set q.2 js) x
        (fun q' hq' hq'x => hmem ⟨q', hq', hq'x⟩)]
      rw [hqx] at *
      exact getD_set_self _ _ _ _ hx

/-- Every element the `dropWhile` of the merge-scan leaves has a value
strictly above the consumed run's value. -/
theorem dropWhile_val_gt [LinearOrder α] (v : α) :
    ∀ l : List (α × Nat), valMono l → (∀ q ∈ l, v ≤ q.1) →
      ∀ q ∈ l.dropWhile (fun q => decide (q.1 = v)), v < q.1
  | [], _, _ => by simp [List.dropWhile]
  | y :: l, hmono, hge => by
    by_cases hy : y.1 = v
    · rw [List.dropWhile_cons, if_pos (by simp [hy])]
      exact dropWhile_val_gt v l (List.Pairwise.of_cons hmono)
        (fun q hq => hge q (List.mem_cons_of_mem _ hq))
    · rw [List.dropWhile_cons, if_neg (by simp [hy])]
      intro q hq
      have hvy : v < y.1 := lt_of_le_of_ne (hge y (List.mem_cons_self _ _))
        (fun h => hy h.symm)
      rcases List.mem_cons.mp hq with h | h
      · rw [h]
        exact hvy
      · exact lt_of_lt_of_le hvy ((List.pairwise_cons.mp hmono).1 q h)

/-- The merge-scan computes, for every pending `(value, position)` pair of
the A-side list, exactly the B-side positions holding that value (in the
B-side list's order), and leaves every other `matchlist` slot untouched. -/
theorem matchScanAux_spec [LinearOrder α] :
    ∀ (fuel : Nat) (aas bbs : List (α × Nat)) (ml : List (List Nat)),
      aas.length + bbs.length ≤ fuel →
      valMono aas → valMono bbs → posDistinct aas →
      (∀ q ∈ aas, ml.getD q.2 [] = []) →
      (∀ q ∈ aas, q.2 < ml.length) →
      (∀ q ∈ aas, (matchScanAux fuel aas bbs ml).getD q.2 [] =
        (bbs.filter (fun b => decide (b.1 = q.1))).map (·.2)) ∧
      (∀ x, (∀ q ∈ aas, q.2 ≠ x) →
        (matchScanAux fuel aas bbs ml).getD x [] = ml.getD x []) := by
  intro fuel
  induction fuel with
  | zero =>
    intro aas bbs ml hfuel _ _ _ hempty _
    cases aas with
    | nil => exact ⟨by simp, fun x _ => rfl⟩
    | cons hd tl => simp at hfuel
  | succ fuel ih =>
    intro aas bbs ml hfuel hma hmb hd hempty hbound
    cases aas with
    | nil => exact ⟨by simp, fun x _ => rfl⟩
    | cons ha aas' =>
    obtain ⟨av, ka⟩ := ha
    cases bbs with
    | nil =>
      refine ⟨?_, fun x _ => rfl⟩
      intro q hq
      simpa using hempty q hq
    | cons hb bbs' =>
    obtain ⟨bv, kb⟩ := hb
    by_cases hab1 : av < bv
    · -- A value too small: drop the A head, nothing of that value in B
      simp only [matchScanAux, if_pos hab1]
      have hfuel' : aas'.length + ((bv, kb) :: bbs').length ≤ fuel := by
        simp only [List.length_cons] at hfuel ⊢
        omega
      have hIH := ih aas' ((bv, kb) :: bbs') ml hfuel' hma.of_cons hmb hd.of_cons
        (fun q hq => hempty q (List.mem_cons_of_mem _ hq))
        (fun q hq => hbound q (List.mem_cons_of_mem _ hq))
      have hka_not : ∀ q ∈ aas', ka ≠ q.2 := by
        intro q hq
        exact (List.pairwise_cons.mp hd).1 q hq
      refine ⟨?_, ?_⟩
      · intro q hq
        rcases List.mem_cons.mp hq with hq | hq
        · subst hq
          rw [hIH.2 ka (fun q' hq' => Ne.symm (hka_not q' hq')),
            hempty _ (List.mem_cons_self _ _)]
          have : ((bv, kb) :: bbs').filter (fun b => decide (b.1 = av)) = [] := by
            rw [List.filter_eq_nil_iff]
            intro b hb
            have hble : bv ≤ b.1 := by
              rcases List.mem_cons.mp hb with h | h
              · rw [h]
              · exact (List.pairwise_cons.mp hmb).1 b h
            simp only [decide_eq_true_eq]
            intro hbv
            rw [hbv] at hble
            exact absurd (lt_of_lt_of_le hab1 hble) (lt_irrefl av)
          rw [this]
          rfl
        · exact hIH.1 q hq
      · intro x hx
        exact hIH.2 x (fun q hq => hx q (List.mem_cons_of_mem _ hq))
    · by_cases hab2 : bv < av
      · -- B value too small: drop the B head
        simp only [matchScanAux, if_neg hab1, if_pos hab2]
        have hfuel' : ((av, ka) :: aas').length + bbs'.length ≤ fuel := by
          simp only [List.length_cons] at hfuel ⊢
          omega
        have hIH := ih ((av, ka) :: aas') bbs' ml hfuel' hma hmb.of_cons hd hempty hbound
        refine ⟨?_, hIH.2⟩
        intro q hq
        rw [hIH.1 q hq]
        have hqv : bv < q.1 := by
          rcases List.mem_cons.mp hq with h | h
          · rw [h]
            exact hab2
          · exact lt_of_lt_of_le hab2 ((List.pairwise_cons.mp hma).1 q h)
        have : ((bv, kb) :: bbs').filter (fun b => decide (b.1 = q.1)) =
            bbs'.filter (fun b => decide (b.1 = q.1)) := by
          rw [List.filter_cons, if_neg]
          simp only [decide_eq_true_eq]
          intro h
          rw [h] at hqv
          exact absurd hqv (lt_irrefl _)
        rw [this]
      · -- equal values: consume the A run and the B run together
        have hv : av = bv := le_antisymm (not_lt.mp hab2) (not_lt.mp hab1)
        subst hv
        simp only [matchScanAux, if_neg hab1, if_neg hab2]
        set brun := (((av, kb) :: bbs').takeWhile (fun q => decide (q.1 = av))) with hbrun
        set js := brun.map (·.2) with hjs
        set ml1 := ml.set ka js with hml1
        set arun := aas'.takeWhile (fun q => decide (q.1 = av)) with harun
        set ml2 := arun.foldl (fun acc q => acc.set q.2 js) ml1 with hml2
        set adrop := aas'.dropWhile (fun q => decide (q.1 = av)) with hadrop
        set bdrop := (((av, kb) :: bbs').dropWhile (fun q => decide (q.1 = av))) with hbdrop
        have hsplitA : arun ++ adrop = aas' := by
          rw [harun, hadrop]
          exact List.takeWhile_append_dropWhile _ _
        have hsplitB : brun ++ bdrop = (av, kb) :: bbs' := by
          rw [hbrun, hbdrop]
          exact List.takeWhile_append_dropWhile _ _
        have hbdrop_len : bdrop.length ≤ bbs'.length := by
          rw [hbdrop, List.dropWhile_cons, if_pos (by simp)]
          exact length_dropWhile_le _ _
        have hadrop_len : adrop.length ≤ aas'.length := by
          rw [hadrop]
          exact length_dropWhile_le _ _
        have hfuel' : adrop.length + bdrop.length ≤ fuel := by
          simp only [List.length_cons] at hfuel
          omega
        have hml1_len : ml1.length = ml.length := by
          rw [hml1, List.length_set]
        have hml2_len : ml2.length = ml.length := by
          rw [hml2, length_foldl_set, hml1_len]
        have hka_not : ∀ q ∈ aas', ka ≠ q.2 := (List.pairwise_cons.mp hd).1
        have hav_le : ∀ q ∈ aas', av ≤ q.1 := (List.pairwise_cons.mp hma).1
        have hbv_le : ∀ q ∈ (av, kb) :: bbs', av ≤ q.1 := by
          intro q hq
          rcases List.mem_cons.mp hq with h | h
          · rw [h]
          · exact (List.pairwise_cons.mp hmb).1 q h
        have hd' : posDistinct aas' := hd.of_cons
        have hcross : ∀ qa ∈ arun, ∀ qd ∈ adrop, qa.2 ≠ qd.2 := by
          have := hsplitA ▸ hd'
          exact (List.pairwise_append.mp this).2.2
        have hadrop_sub : adrop.Sublist aas' := by
          rw [hadrop]
          exact List.dropWhile_sublist _
        have harun_sub : arun.Sublist aas' := by
          rw [harun]
          exact List.takeWhile_sublist _
        have hbdrop_sub : bdrop.Sublist ((av, kb) :: bbs') := by
          rw [hbdrop]
          exact List.dropWhile_sublist _
        have hempty2 : ∀ q ∈ adrop, ml2.getD q.2 [] = [] := by
          intro q hq
          have hq' : q ∈ aas' := hadrop_sub.subset hq
          rw [hml2, foldl_set_getD_not_mem js arun ml1 q.2
            (fun qa hqa => hcross qa hqa q hq),
            hml1, getD_set_ne _ _ _ (hka_not q hq'),
            hempty q (List.mem_cons_of_mem _ hq')]
        have hbound2 : ∀ q ∈ adrop, q.2 < ml2.length := by
          intro q hq
          rw [hml2_len]
          exact hbound q (List.mem_cons_of_mem _ (hadrop_sub.subset hq))
        have hIH := ih adrop bdrop ml2 hfuel'
          (List.Pairwise.sublist hadrop_sub hma.of_cons)
          (List.Pairwise.sublist hbdrop_sub hmb)
          (List.Pairwise.sublist hadrop_sub hd')
          hempty2 hbound2
        have hgt : ∀ q ∈ adrop, av < q.1 := by
          rw [hadrop]
          exact dropWhile_val_gt av aas' hma.of_cons hav_le
        have hfilter_run : ((av, kb) :: bbs').filter (fun b => decide (b.1 = av)) = brun := by
          rw [hbrun]
          exact filter_eq_takeWhile_val av _ hmb hbv_le
        have hml2_at_ka : ml2.getD ka [] = js := by
          rw [hml2, foldl_set_getD_not_mem js arun ml1 ka ?_, hml1,
            getD_set_self _ _ _ _ (hbound _ (List.mem_cons_self _ _))]
          intro qa hqa
          exact Ne.symm (hka_not qa (harun_sub.subset hqa))
        refine ⟨?_, ?_⟩
        · intro q hq
          rcases List.mem_cons.mp hq with hq | hq
          · subst hq
            rw [hIH.2 ka (fun qd hqd => Ne.symm (hka_not qd (hadrop_sub.subset hqd))),
              hml2_at_ka, hfilter_run]
          · rcases (List.mem_append.mp (hsplitA ▸ hq)) with hqa | hqd
            · -- q is aliased within the A run of equal values
              have hqv : q.1 = av := by
                have := List.mem_takeWhile_imp hqa
                simpa using this
              rw [hIH.2 q.2 (fun qd hqd => Ne.symm (hcross q hqa qd hqd)),
                hml2, foldl_set_getD_mem js arun ml1 q.2 ⟨q, hqa, rfl⟩
                  (by rw [hml1_len]; exact hbound q (List.mem_cons_of_mem _ hq)),
                hqv, hfilter_run]
            · rw [hIH.1 q hqd]
              have hqgt : av < q.1 := hgt q hqd
              have : ((av, kb) :: bbs').filter (fun b => decide (b.1 = q.1)) =
                  bdrop.filter (fun b => decide (b.1 = q.1)) := by
                conv_lhs => rw [← hsplitB]
                rw [List.filter_append, List.filter_eq_nil_iff.mpr ?_, List.nil_append]
                intro b hb
                have hbv : b.1 = av := by
                  have := List.mem_takeWhile_imp hb
                  simpa using this
                simp only [decide_eq_true_eq]
                intro h
                rw [h] at hbv
                rw [hbv] at hqgt
                exact absurd hqgt (lt_irrefl _)
              rw [this]
        · intro x hx
          rw [hIH.2 x (fun qd hqd => hx qd
            (List.mem_cons_of_mem _ (hadrop_sub.subset hqd))),
            hml2, foldl_set_getD_not_mem js arun ml1 x
              (fun qa hqa => hx qa (List.mem_cons_of_mem _ (harun_sub.subset hqa))),
            hml1, getD_set_ne _ _ _ (hx _ (List.mem_cons_self _ _))]

theorem getD_replicate_nil (k x : Nat) :
    (List.replicate k ([] : List Nat)).getD x [] = [] := by
  simp only [List.getD_eq_getElem?_getD, List.getElem?_replicate]
  split <;> simp

/-- The two facts about an element of either engine's sorted B-side list:
it is a genuine 1-based position/value pair of `B`. -/
theorem sorted_zip_mem [LinearOrder α] (r : α × Nat → α × Nat → Prop)
    [DecidableRel r] (B : List α) (b : α × Nat)
    (hb : b ∈ List.insertionSort r (List.zip B (List.range' 1 B.length))) :
    1 ≤ b.2 ∧ b.2 ≤ B.length ∧ B.get? (b.2 - 1) = some b.1 := by
  have hmem : b ∈ List.zip B (List.range' 1 B.length) :=
    (List.perm_insertionSort r _).mem_iff.mp hb
  obtain ⟨idx, hidx, hget, hpos⟩ := (mem_zip_range' B 1 b).mp hmem
  refine ⟨by omega, by omega, ?_⟩
  have : b.2 - 1 = idx := by omega
  rw [this]
  exact hget

/-- Facts about `matchlist[i]` as hs.py builds it (descending-position
sort): its entries are exactly the positions of `A[i-1]`'s value in `B`,
each a valid match, and they are strictly decreasing. -/
theorem hs_ml_facts [LinearOrder α] (A B : List α) (i : Nat) (x : α)
    (h1 : 1 ≤ i) (h2 : i ≤ A.length) (hx : A.get? (i - 1) = some x) :
    (∀ j ∈ (matchScan (List.insertionSort keyDesc (List.zip A (List.range' 1 A.length)))
        (List.insertionSort keyDesc (List.zip B (List.range' 1 B.length)))
        (List.replicate (A.length + 1) [])).getD i [],
      1 ≤ j ∧ j ≤ B.length ∧ B.get? (j - 1) = some x) ∧
    List.Pairwise (fun a b : Nat => b < a)
      ((matchScan (List.insertionSort keyDesc (List.zip A (List.range' 1 A.length)))
        (List.insertionSort keyDesc (List.zip B (List.range' 1 B.length)))
        (List.replicate (A.length + 1) [])).getD i []) := by
  set aa := List.insertionSort keyDesc (List.zip A (List.range' 1 A.length)) with haa
  set bb := List.insertionSort keyDesc (List.zip B (List.range' 1 B.length)) with hbb
  have haasort : List.Pairwise keyDesc aa :=
    List.sorted_insertionSort keyDesc (List.zip A (List.range' 1 A.length))
  have hbbsort : List.Pairwise keyDesc bb :=
    List.sorted_insertionSort keyDesc (List.zip B (List.range' 1 B.length))
  have haaperm := List.perm_insertionSort keyDesc (List.zip A (List.range' 1 A.length))
  have hbbperm := List.perm_insertionSort keyDesc (List.zip B (List.range' 1 B.length))
  have haadist : posDistinct aa := posDistinct_perm haaperm.symm (posDistinct_zip A 1)
  have hbbdist : posDistinct bb := posDistinct_perm hbbperm.symm (posDistinct_zip B 1)
  have hxi : ((x, i) : α × Nat) ∈ aa := by
    rw [haa]
    refine haaperm.mem_iff.mpr ((mem_zip_range' A 1 (x, i)).mpr ⟨i - 1, by omega, ?_, by omega⟩)
    simpa using hx
  have hspec := matchScanAux_spec (aa.length + bb.length) aa bb
    (List.replicate (A.length + 1) []) (Nat.le_refl _)
    (valMono_of_keyDesc haasort) (valMono_of_keyDesc hbbsort) haadist
    (fun q _ => getD_replicate_nil _ _)
    (fun q hq => by
      have := (mem_zip_range' A 1 q).mp (haaperm.mem_iff.mp hq)
      obtain ⟨idx, hidx, _, hpos⟩ := this
      simp only [List.length_replicate]
      omega)
  have hml : (matchScan aa bb (List.replicate (A.length + 1) [])).getD i [] =
      (bb.filter (fun b => decide (b.1 = x))).map (·.2) := by
    have := hspec.1 (x, i) hxi
    simpa [matchScan] using this
  rw [hml]
  constructor
  · intro j hj
    obtain ⟨b, hbmem, hbj⟩ := List.mem_map.mp hj
    have hbf := List.mem_filter.mp hbmem
    have hbv : b.1 = x := by simpa using hbf.2
    have := sorted_zip_mem keyDesc B b hbf.1
    rw [hbj] at this
    rw [hbv, hbj] at *
    exact ⟨this.1, this.2.1, this.2.2⟩
  · exact filtered_positions_desc x bb hbbsort hbbdist

/-- Facts about `matchlist[i]` as kc.py builds it (ascending-position
sort): like `hs_ml_facts` but the positions are strictly increasing. -/
theorem kc_ml_facts [LinearOrder α] (A B : List α) (i : Nat) (x : α)
    (h1 : 1 ≤ i) (h2 : i ≤ A.length) (hx : A.get? (i - 1) = some x) :
    (∀ j ∈ (matchScan (List.insertionSort keyAsc (List.zip A (List.range' 1 A.length)))
        (List.insertionSort keyAsc (List.zip B (List.range' 1 B.length)))
        (List.replicate (A.length + 1) [])).getD i [],
      1 ≤ j ∧ j ≤ B.length ∧ B.get? (j - 1) = some x) ∧
    List.Pairwise (fun a b : Nat => a < b)
      ((matchScan (List.insertionSort keyAsc (List.zip A (List.range' 1 A.length)))
        (List.insertionSort keyAsc (List.zip B (List.range' 1 B.length)))
        (List.replicate (A.length + 1) [])).getD i []) := by
  set aa := List.insertionSort keyAsc (List.zip A (List.range' 1 A.length)) with haa
  set bb := List.insertionSort keyAsc (List.zip B (List.range' 1 B.length)) with hbb
  have haasort : List.Pairwise keyAsc aa :=
    List.sorted_insertionSort keyAsc (List.zip A (List.range' 1 A.length))
  have hbbsort : List.Pairwise keyAsc bb :=
    List.sorted_insertionSort keyAsc (List.zip B (List.range' 1 B.length))
  have haaperm := List.perm_insertionSort keyAsc (List.zip A (List.range' 1 A.length))
  have hbbperm := List.perm_insertionSort keyAsc (List.zip B (List.range' 1 B.length))
  have haadist : posDistinct aa := posDistinct_perm haaperm.symm (posDistinct_zip A 1)
  have hbbdist : posDistinct bb := posDistinct_perm hbbperm.symm (posDistinct_zip B 1)
  have hxi : ((x, i) : α × Nat) ∈ aa := by
    rw [haa]
    refine haaperm.mem_iff.mpr ((mem_zip_range' A 1 (x, i)).mpr ⟨i - 1, by omega, ?_, by omega⟩)
    simpa using hx
  have hspec := matchScanAux_spec (aa.length + bb.length) aa bb
    (List.replicate (A.length + 1) []) (Nat.le_refl _)
    (valMono_of_keyAsc haasort) (valMono_of_keyAsc hbbsort) haadist
    (fun q _ => getD_replicate_nil _ _)
    (fun q hq => by
      have := (mem_zip_range' A 1 q).mp (haaperm.mem_iff.mp hq)
      obtain ⟨idx, hidx, _, hpos⟩ := this
      simp only [List.length_replicate]
      omega)
  have hml : (matchScan aa bb (List.replicate (A.length + 1) [])).getD i [] =
      (bb.filter (fun b => decide (b.1 = x))).map (·.2) := by
    have := hspec.1 (x, i) hxi
    simpa [matchScan] using this
  rw [hml]
  constructor
  · intro j hj
    obtain ⟨b, hbmem, hbj⟩ := List.mem_map.mp hj
    have hbf := List.mem_filter.mp hbmem
    have hbv : b.1 = x := by simpa using hbf.2
    have := sorted_zip_mem keyAsc B b hbf.1
    rw [hbj] at this
    rw [hbv, hbj] at *
    exact ⟨this.1, this.2.1, this.2.2⟩
  · exact filtered_positions_asc x bb hbbsort hbbdist

/-! ## hs.py main-loop validity (C1) -/

/-- The link-array invariant during one hs.py row: every stored chain is
valid, tops out at most at its threshold entry, and was stored either in
an earlier row, or earlier in this row at a larger candidate than every
pending one (hs.py processes candidates in descending order). -/
def hsLinkInv (A B : List α) (n : Nat) (t : List Nat) (l : List (Option Cand))
    (i : Nat) (pend : List Nat) : Prop :=
  ∀ k, OptValid A B (l.getD k none) ∧
    candJD (l.getD k none) ≤ t.getD k (n + 1) ∧
    (candID (l.getD k none) < i ∨
      (candID (l.getD k none) = i ∧ ∀ j ∈ pend, j < candJD (l.getD k none)))

theorem hs_step_lengths (n i : Nat) (t : List Nat) (l : List (Option Cand)) (j : Nat) :
    (hs.step n i (t, l) j).1.length = t.length ∧
    (hs.step n i (t, l) j).2.length = l.length := by
  simp only [hs.step]
  split
  · exact ⟨List.length_set _ _ _, List.length_set _ _ _⟩
  · exact ⟨rfl, rfl⟩

/-- Processing one candidate of an hs.py row preserves the threshold and
link invariants (the pending list loses its head). -/
theorem hs_step_link (A B : List α) (m n i : Nat) (t : List Nat)
    (l : List (Option Cand)) (j : Nat) (rest : List Nat)
    (ht : threshInv m n t) (hl : hsLinkInv A B n t l i (j :: rest))
    (hlen : l.length = t.length)
    (hi1 : 1 ≤ i) (him : i ≤ A.length)
    (hj1 : 1 ≤ j) (hjn : j ≤ n) (hn : n = B.length)
    (hmatch : A.get? (i - 1) = B.get? (j - 1))
    (hrest : ∀ j' ∈ rest, j' < j) :
    threshInv m n (hs.step n i (t, l) j).1 ∧
    hsLinkInv A B n (hs.step n i (t, l) j).1 (hs.step n i (t, l) j).2 i rest := by
  refine ⟨hs_step_thresh m n i j t l ht hj1 hjn, ?_⟩
  have hlen' := ht.1
  have h0 := ht.2.1
  have hspec := bisectLeft_spec (fun mid => decide (t.getD mid 0 < j)) 0 t.length
    (Nat.zero_le _)
  simp only [hs.step]
  set k := bisectLeft (fun mid => decide (t.getD mid 0 < j)) 0 t.length with hkdef
  by_cases hguard : j < t.getD k (n + 1)
  · rw [if_pos hguard]
    have hk1 : 1 ≤ k := by
      by_contra hk0
      have hk0' : k = 0 := by omega
      have hhi : k < t.length := by rw [hk0', hlen']; omega
      have := hspec.2.2.2 hhi
      rw [hk0'] at this
      simp only [decide_eq_false_iff_not, not_lt] at this
      have h0' := h0
      rw [getD_irrel (by rw [hlen']; omega) 0 (n + 1)] at this h0'
      omega
    have hklen : k ≤ t.length := hspec.2.1
    have hbelow : t.getD (k - 1) (n + 1) < j := by
      have := hspec.2.2.1 (by omega)
      simp only [decide_eq_true_eq] at this
      rwa [getD_irrel (by omega) (n + 1) 0]
    by_cases hkt : k < t.length
    · intro s
      by_cases hsk : s = k
      · subst hsk
        have hkl : k < l.length := by omega
        rw [getD_set_self _ _ _ _ hkl, getD_set_self _ _ _ _ hkt]
        have hprev := hl (k - 1)
        refine ⟨?_, ?_, Or.inr ⟨rfl, hrest⟩⟩
        · show (Cand.mk i j (l.getD (k - 1) none)).Valid A B
          have hmatch' : A.get? (i - 1) = B.get? (j - 1) := hmatch
          cases hc : l.getD (k - 1) none with
          | none => exact Cand.Valid.root i j hi1 him hj1 (by omega) hmatch'
          | some p =>
            have hpv : p.Valid A B := by
              have := hprev.1
              rw [hc] at this
              exact this
            have hpj : p.j < j := by
              have := hprev.2.1
              rw [hc] at this
              simp only [candJD] at this
              omega
            have hpi : p.i < i := by
              rcases hprev.2.2 with h | ⟨heq, hall⟩
              · rw [hc] at h
                simpa [candID] using h
              · exfalso
                have := hall j (List.mem_cons_self _ _)
                rw [hc] at this
                simp only [candJD] at this
                have h2 := hprev.2.1
                rw [hc] at h2
                simp only [candJD] at h2
                omega
            exact Cand.Valid.cons i j p hi1 him hj1 (by omega) hmatch' hpi hpj hpv
        · simp [candJD, Cand.j]
      · rw [getD_set_ne _ _ _ (fun h => hsk h.symm), getD_set_ne _ _ _ (fun h => hsk h.symm)]
        have := hl s
        exact ⟨this.1, this.2.1, by
          rcases this.2.2 with h | ⟨heq, hall⟩
          · exact Or.inl h
          · exact Or.inr ⟨heq, fun j' hj' => hall j' (List.mem_cons_of_mem _ hj')⟩⟩
    · have hkeq : k = t.length := by omega
      rw [List.set_eq_of_length_le (by omega), List.set_eq_of_length_le (by omega)]
      intro s
      have := hl s
      exact ⟨this.1, this.2.1, by
        rcases this.2.2 with h | ⟨heq, hall⟩
        · exact Or.inl h
        · exact Or.inr ⟨heq, fun j' hj' => hall j' (List.mem_cons_of_mem _ hj')⟩⟩
  · rw [if_neg hguard]
    intro s
    have := hl s
    exact ⟨this.1, this.2.1, by
      rcases this.2.2 with h | ⟨heq, hall⟩
      · exact Or.inl h
      · exact Or.inr ⟨heq, fun j' hj' => hall j' (List.mem_cons_of_mem _ hj')⟩⟩

/-- Folding one hs.py row over its (descending, valid) candidate list
preserves the invariants, emptying the pending list. -/
theorem hs_row_link (A B : List α) (m n i : Nat)
    (hi1 : 1 ≤ i) (him : i ≤ A.length) (hn : n = B.length) :
    ∀ (js : List Nat) (t : List Nat) (l : List (Option Cand)),
      threshInv m n t → hsLinkInv A B n t l i js → l.length = t.length →
      (∀ j ∈ js, 1 ≤ j ∧ j ≤ n ∧ A.get? (i - 1) = B.get? (j - 1)) →
      List.Pairwise (fun a b : Nat => b < a) js →
      threshInv m n (js.foldl (hs.step n i) (t, l)).1 ∧
      hsLinkInv A B n (js.foldl (hs.step n i) (t, l)).1
        (js.foldl (hs.step n i) (t, l)).2 i [] ∧
      (js.foldl (hs.step n i) (t, l)).2.length = (js.foldl (hs.step n i) (t, l)).1.length
  | [], t, l, ht, hl, hlen, _, _ => ⟨ht, hl, hlen⟩
  | j :: rest, t, l, ht, hl, hlen, hjs, hdesc => by
    rw [List.foldl_cons]
    have hj := hjs j (List.mem_cons_self _ _)
    have hstep := hs_step_link A B m n i t l j rest ht hl hlen hi1 him
      hj.1 hj.2.1 hn hj.2.2 (List.pairwise_cons.mp hdesc).1
    have hlens := hs_step_lengths n i t l j
    have : hs.step n i (t, l) j = ((hs.step n i (t, l) j).1, (hs.step n i (t, l) j).2) := rfl
    rw [this]
    exact hs_row_link A B m n i hi1 him hn rest
      (hs.step n i (t, l) j).1 (hs.step n i (t, l) j).2
      hstep.1 hstep.2 (by omega)
      (fun j' hj' => hjs j' (List.mem_cons_of_mem _ hj'))
      (List.Pairwise.of_cons hdesc)

/-- The cross-row invariant of hs.py's link array: every stored chain is
valid, bounded by its threshold entry, and owned by an already-processed
row. -/
def hsGlobalInv (A B : List α) (n : Nat) (t : List Nat)
    (l : List (Option Cand)) (idone : Nat) : Prop :=
  ∀ k, OptValid A B (l.getD k none) ∧
    candJD (l.getD k none) ≤ t.getD k (n + 1) ∧
    candID (l.getD k none) ≤ idone

theorem hsGlobalInv_to_link (A B : List α) (n : Nat) (t : List Nat)
    (l : List (Option Cand)) (i : Nat) (pend : List Nat) (hi : 1 ≤ i)
    (h : hsGlobalInv A B n t l (i - 1)) : hsLinkInv A B n t l i pend := by
  intro k
  have := h k
  exact ⟨this.1, this.2.1, Or.inl (by omega)⟩

theorem hsLinkInv_to_global (A B : List α) (n : Nat) (t : List Nat)
    (l : List (Option Cand)) (i : Nat)
    (h : hsLinkInv A B n t l i []) : hsGlobalInv A B n t l i := by
  intro k
  have := h k
  refine ⟨this.1, this.2.1, ?_⟩
  rcases this.2.2 with h' | ⟨h', _⟩
  · omega
  · omega

/-- Folding hs.py's main loop over the remaining rows preserves the global
invariant. -/
theorem hs_rows (A B : List α) (m n : Nat) (ml : List (List Nat))
    (hm : m = A.length) (hn : n = B.length)
    (hml : ∀ i, 1 ≤ i → i ≤ m →
      (∀ j ∈ ml.getD i [], 1 ≤ j ∧ j ≤ n ∧ A.get? (i - 1) = B.get? (j - 1)) ∧
      List.Pairwise (fun a b : Nat => b < a) (ml.getD i [])) :
    ∀ (cnt s : Nat) (t : List Nat) (l : List (Option Cand)),
      1 ≤ s → s + cnt = m + 1 →
      threshInv m n t → hsGlobalInv A B n t l (s - 1) → l.length = t.length →
      threshInv m n ((List.range' s cnt).foldl
        (fun tl i => (ml.getD i []).foldl (hs.step n i) tl) (t, l)).1 ∧
      hsGlobalInv A B n
        ((List.range' s cnt).foldl
          (fun tl i => (ml.getD i []).foldl (hs.step n i) tl) (t, l)).1
        ((List.range' s cnt).foldl
          (fun tl i => (ml.getD i []).foldl (hs.step n i) tl) (t, l)).2 m
  | 0, s, t, l, hs1, hscnt, ht, hg, hlen => by
    have : s - 1 = m := by omega
    rw [List.range'_zero, List.foldl_nil]
    exact ⟨ht, this ▸ hg⟩
  | cnt + 1, s, t, l, hs1, hscnt, ht, hg, hlen => by
    rw [List.range'_succ, List.foldl_cons]
    have hsm : s ≤ m := by omega
    have hrow := hs_row_link A B m n s hs1 (by omega) hn (ml.getD s [])
      t l ht (hsGlobalInv_to_link A B n t l s (ml.getD s []) hs1 hg) hlen
      (hml s hs1 hsm).1 (hml s hs1 hsm).2
    have hform : (ml.getD s []).foldl (hs.step n s) (t, l) =
        (((ml.getD s []).foldl (hs.step n s) (t, l)).1,
          ((ml.getD s []).foldl (hs.step n s) (t, l)).2) := rfl
    rw [hform]
    have hnext := hs_rows A B m n ml hm hn hml cnt (s + 1)
      ((ml.getD s []).foldl (hs.step n s) (t, l)).1
      ((ml.getD s []).foldl (hs.step n s) (t, l)).2
      (by omega) (by omega) hrow.1
      (by
        have := hsLinkInv_to_global A B n _ _ s hrow.2.1
        have hse : s + 1 - 1 = s := by omega
        rw [hse]
        exact this)
      hrow.2.2
    exact hnext

/-- C1 for hs.py: the returned match list is valid. -/
theorem hs_LCS_valid [LinearOrder α] (A B : List α) : ValidLCS A B (hs.LCS A B) := by
  unfold hs.LCS
  simp only
  set m := A.length with hm
  set n := B.length with hn
  set aa := List.insertionSort keyDesc (List.zip A (List.range' 1 m)) with haa
  set bb := List.insertionSort keyDesc (List.zip B (List.range' 1 n)) with hbb
  set ml := matchScan aa bb (List.replicate (m + 1) []) with hml
  have hmlf : ∀ i, 1 ≤ i → i ≤ m →
      (∀ j ∈ ml.getD i [], 1 ≤ j ∧ j ≤ n ∧ A.get? (i - 1) = B.get? (j - 1)) ∧
      List.Pairwise (fun a b : Nat => b < a) (ml.getD i []) := by
    intro i h1 h2
    have hlt : i - 1 < A.length := by omega
    obtain ⟨x, hx⟩ : ∃ x, A.get? (i - 1) = some x :=
      ⟨A.get ⟨i - 1, hlt⟩, List.get?_eq_get hlt⟩
    have := hs_ml_facts A B i x h1 h2 hx
    refine ⟨fun j hj => ?_, this.2⟩
    have hj' := this.1 j hj
    exact ⟨hj'.1, hj'.2.1, by rw [hx, hj'.2.2]⟩
  have hrows := hs_rows A B m n ml hm hn hmlf m 1
    (threshInit m n) (List.replicate (m + 1) none)
    (Nat.le_refl 1) (by omega) (threshInit_inv m n)
    (by
      intro k
      have hnone : (List.replicate (m + 1) (none : Option Cand)).getD k none = none := by
        simp only [List.getD_eq_getElem?_getD, List.getElem?_replicate]
        split <;> simp
      rw [hnone]
      exact ⟨trivial, by simp [candJD], by simp [candID]⟩)
    (by simp [threshInit])
  set res := (List.range' 1 m).foldl
    (fun tl i => (ml.getD i []).foldl (hs.step n i) tl)
    (threshInit m n, List.replicate (m + 1) none) with hres
  have hval : OptValid A B (res.2.getD (finalK res.1 m n) none) := (hrows.2 _).1
  exact optValid_reverse_valid A B _ hval

/-! ## kc.py main-loop validity (C1) -/

/-- The invariant of one kc.py row (kc.py lines 48-68).  The buffered chain
`c` is this row's pending chain for slot `r`; `link[r]` still holds the
stale pre-update chain, bounded by the captured `temp`; slots other than
`r` below `r` may already hold this-row chains (flushed buffers), slots
above `r` still hold earlier-row chains bounded by their thresholds. -/
def kcRowInv (A B : List α) (m n i : Nat) (s : kc.RowState) : Prop :=
  threshInv m n s.t ∧
  s.l.length = s.t.length ∧
  s.r ≤ s.k ∧
  s.t.getD s.k (n + 1) ≤ s.temp ∧
  (s.r = 0 → s.c = none) ∧
  s.l.getD 0 none = none ∧
  (OptValid A B s.c ∧ candID s.c ≤ i ∧ candJD s.c ≤ s.t.getD s.r (n + 1)) ∧
  (OptValid A B (s.l.getD s.r none) ∧ candID (s.l.getD s.r none) < i ∧
    candJD (s.l.getD s.r none) ≤ s.temp) ∧
  (∀ x, x ≠ s.r → OptValid A B (s.l.getD x none) ∧
    (x < s.r → candID (s.l.getD x none) ≤ i) ∧
    (x > s.r → candID (s.l.getD x none) < i) ∧
    candJD (s.l.getD x none) ≤ s.t.getD x (n + 1))

/-- The cross-row invariant of kc.py's link array. -/
def kcGlobalInv (A B : List α) (n : Nat) (t : List Nat)
    (l : List (Option Cand)) (idone : Nat) : Prop :=
  l.length = t.length ∧ l.getD 0 none = none ∧
  ∀ k, OptValid A B (l.getD k none) ∧
    candJD (l.getD k none) ≤ t.getD k (n + 1) ∧
    candID (l.getD k none) ≤ idone

/-- Processing one candidate of a kc.py row preserves the row invariant. -/
theorem kc_step_inv (A B : List α) (m n i : Nat) (s : kc.RowState) (j : Nat)
    (hinv : kcRowInv A B m n i s) (hi1 : 1 ≤ i) (him : i ≤ A.length)
    (hj1 : 1 ≤ j) (hjn : j ≤ n) (hnB : n = B.length)
    (hmatch : A.get? (i - 1) = B.get? (j - 1)) :
    kcRowInv A B m n i (kc.step n i s j) := by
  obtain ⟨ht, hlen, hrk, hA1, hA7, hL0, ⟨hcv, hci, hcj⟩, ⟨hrv, hri, hrj⟩, hother⟩ := hinv
  simp only [kc.step]
  by_cases hc : j > s.temp
  · rw [if_pos hc]
    have hspec := kc.advanceK_spec s.t n j (by omega) (s.t.length + 1) (s.k + 1) (by omega)
    set k1 := kc.advanceK s.t n j (s.t.length + 1) (s.k + 1) with hk1def
    have hk11 : s.k + 1 ≤ k1 := hspec.1
    have habove : j ≤ s.t.getD k1 (n + 1) := hspec.2.1
    have hbelow : s.t.getD (k1 - 1) (n + 1) < j := by
      by_cases heq : k1 = s.k + 1
      · rw [heq]
        simp only [Nat.add_sub_cancel]
        omega
      · exact hspec.2.2 (k1 - 1) (by omega) (by omega)
    have hrk1 : s.r < k1 := by omega
    by_cases hguard : j < s.t.getD k1 (n + 1)
    · rw [if_pos hguard]
      -- the update branch
      have hthresh' := threshInv_set m n s.t k1 j ht hj1 hjn (by omega) hbelow habove
      have hprev_facts : OptValid A B (s.l.getD (k1 - 1) none) ∧
          candID (s.l.getD (k1 - 1) none) < i ∧
          candJD (s.l.getD (k1 - 1) none) < j := by
        by_cases heq : k1 - 1 = s.r
        · rw [heq]
          exact ⟨hrv, hri, by omega⟩
        · have := hother (k1 - 1) heq
          refine ⟨this.1, this.2.2.1 (by omega), ?_⟩
          have := this.2.2.2
          omega
      have hcv' : OptValid A B (some (Cand.mk i j (s.l.getD (k1 - 1) none))) := by
        show (Cand.mk i j (s.l.getD (k1 - 1) none)).Valid A B
        cases hcc : s.l.getD (k1 - 1) none with
        | none => exact Cand.Valid.root i j hi1 him hj1 (by omega) hmatch
        | some p =>
          have h1 := hprev_facts.1
          have h2 := hprev_facts.2.1
          have h3 := hprev_facts.2.2
          rw [hcc] at h1 h2 h3
          exact Cand.Valid.cons i j p hi1 him hj1 (by omega) hmatch
            (by simpa [candID] using h2) (by simpa [candJD] using h3) h1
      have hgetr : ∀ x, (s.l.set s.r s.c).getD x none =
          if x = s.r ∧ s.r < s.l.length then s.c else
            if x = s.r then none else s.l.getD x none := by
        intro x
        by_cases hx : x = s.r
        · by_cases hrl : s.r < s.l.length
          · rw [hx, getD_set_self _ _ _ _ hrl, if_pos ⟨rfl, hrl⟩]
          · rw [List.set_eq_of_length_le (le_of_not_lt hrl), if_neg (fun h => hrl h.2),
              if_pos hx, hx, List.getD_eq_default _ _ (le_of_not_lt hrl)]
        · rw [getD_set_ne _ _ _ (fun h => hx h.symm), if_neg (fun h => hx h.1), if_neg hx]
      have htget : ∀ x, (s.t.set k1 j).getD x (n + 1) =
          if x = k1 ∧ k1 < s.t.length then j else s.t.getD x (n + 1) := by
        intro x
        by_cases hx : x = k1
        · by_cases hkl : k1 < s.t.length
          · rw [hx, getD_set_self _ _ _ _ hkl, if_pos ⟨rfl, hkl⟩]
          · rw [List.set_eq_of_length_le (le_of_not_lt hkl), if_neg (fun h => hkl h.2)]
        · rw [getD_set_ne _ _ _ (fun h => hx h.symm), if_neg (fun h => hx h.1)]
      unfold kcRowInv
      dsimp only
      refine ⟨hthresh', ?_, Nat.le_refl _, ?_, ?_, ?_, ⟨hcv', ?_, ?_⟩, ?_, ?_⟩
      · rw [List.length_set, List.length_set]
        exact hlen
      · -- new thresh[k1] ≤ new temp
        rw [htget]
        by_cases hkl : k1 < s.t.length
        · rw [if_pos ⟨rfl, hkl⟩]
          omega
        · rw [if_neg (fun h => hkl h.2)]
      · intro h
        omega
      · -- link[0] stays none
        rw [hgetr]
        by_cases h0 : (0 : Nat) = s.r
        · by_cases hrl : s.r < s.l.length
          · rw [if_pos ⟨h0, hrl⟩]
            exact hA7 h0.symm
          · rw [if_neg (fun h => hrl h.2), if_pos h0]
        · rw [if_neg (fun h => h0 h.1), if_neg h0]
          exact hL0
      · simp [candID, Cand.i]
      · -- candJD of the new buffered chain vs new thresh at new r
        simp only [candJD, Cand.j]
        rw [htget]
        by_cases hkl : k1 < s.t.length
        · rw [if_pos ⟨rfl, hkl⟩]
        · rw [if_neg (fun h => hkl h.2)]
          omega
      · -- the stale link at the new r = k1
        have hk1r : k1 ≠ s.r := by omega
        rw [hgetr, if_neg (fun h => hk1r h.1), if_neg hk1r]
        have := hother k1 hk1r
        exact ⟨this.1, this.2.2.1 (by omega), this.2.2.2⟩
      · -- all other slots
        intro x hx
        rw [hgetr, htget]
        by_cases hxr : x = s.r
        · by_cases hrl : s.r < s.l.length
          · rw [if_pos ⟨hxr, hrl⟩, if_neg (by omega)]
            refine ⟨hcv, fun _ => hci, fun h => ?_, ?_⟩
            · rw [hxr] at h
              omega
            · rw [hxr]
              exact hcj
          · rw [if_neg (fun h => hrl h.2), if_pos hxr, if_neg (by omega)]
            exact ⟨trivial, fun _ => by simp [candID], fun _ => by simp [candID]; omega,
              by simp [candJD]⟩
        · rw [if_neg (fun h => hxr h.1), if_neg hxr, if_neg (by omega)]
          have := hother x hxr
          refine ⟨this.1, fun h => ?_, fun h => ?_, this.2.2.2⟩
          · by_cases hxr' : x < s.r
            · exact this.2.1 hxr'
            · exact le_of_lt (this.2.2.1 (by omega))
          · exact this.2.2.1 (by omega)
    · rw [if_neg hguard]
      -- advance without update: j equals thresh[k1]
      unfold kcRowInv
      dsimp only
      exact ⟨ht, hlen, by omega, Nat.le_refl _, hA7, hL0, ⟨hcv, hci, hcj⟩,
        ⟨hrv, hri, by omega⟩, hother⟩
  · rw [if_neg hc]
    exact ⟨ht, hlen, hrk, hA1, hA7, hL0, ⟨hcv, hci, hcj⟩, ⟨hrv, hri, hrj⟩, hother⟩

/-- Folding a kc.py row over its candidate list preserves the row
invariant. -/
theorem kc_fold_inv (A B : List α) (m n i : Nat)
    (hi1 : 1 ≤ i) (him : i ≤ A.length) (hnB : n = B.length) :
    ∀ (js : List Nat) (s : kc.RowState),
      kcRowInv A B m n i s →
      (∀ j ∈ js, 1 ≤ j ∧ j ≤ n ∧ A.get? (i - 1) = B.get? (j - 1)) →
      kcRowInv A B m n i (js.foldl (kc.step n i) s)
  | [], s, hinv, _ => hinv
  | j :: rest, s, hinv, hjs => by
    rw [List.foldl_cons]
    have hj := hjs j (List.mem_cons_self _ _)
    exact kc_fold_inv A B m n i hi1 him hnB rest (kc.step n i s j)
      (kc_step_inv A B m n i s j hinv hi1 him hj.1 hj.2.1 hnB hj.2.2)
      (fun j' hj' => hjs j' (List.mem_cons_of_mem _ hj'))

/-- Starting a kc.py row from the cross-row invariant establishes the row
invariant for the fresh local state. -/
theorem kc_row_start (A B : List α) (m n i : Nat) (t : List Nat)
    (l : List (Option Cand)) (hi1 : 1 ≤ i)
    (ht : threshInv m n t) (hg : kcGlobalInv A B n t l (i - 1)) :
    kcRowInv A B m n i
      { t := t, l := l, k := 0, temp := 0, r := 0, c := l.getD 0 none } := by
  obtain ⟨hlen, hL0, hall⟩ := hg
  have ht0 : t.getD 0 (n + 1) = 0 := by
    have := ht.2.1
    rwa [getD_irrel (by rw [ht.1]; omega) 0 (n + 1)] at this
  unfold kcRowInv
  dsimp only
  rw [hL0]
  refine ⟨ht, hlen, Nat.le_refl _, by omega, fun _ => rfl, rfl,
    ⟨trivial, by simp [candID], by simp [candJD]⟩,
    ⟨trivial, by simp [candID]; omega, by simp [candJD]⟩, ?_⟩
  intro x hx
  have := hall x
  exact ⟨this.1, fun h => by omega, fun _ => by omega, this.2.1⟩

/-- Flushing the buffered chain at the end of a kc.py row
(`link[r] = c`) re-establishes the cross-row invariant. -/
theorem kc_row_end (A B : List α) (m n i : Nat) (s : kc.RowState)
    (hinv : kcRowInv A B m n i s) :
    kcGlobalInv A B n s.t (s.l.set s.r s.c) i := by
  obtain ⟨ht, hlen, hrk, hA1, hA7, hL0, ⟨hcv, hci, hcj⟩, ⟨hrv, hri, hrj⟩, hother⟩ := hinv
  have hgetr : ∀ x, (s.l.set s.r s.c).getD x none =
      if x = s.r ∧ s.r < s.l.length then s.c else
        if x = s.r then none else s.l.getD x none := by
    intro x
    by_cases hx : x = s.r
    · by_cases hrl : s.r < s.l.length
      · rw [hx, getD_set_self _ _ _ _ hrl, if_pos ⟨rfl, hrl⟩]
      · rw [List.set_eq_of_length_le (le_of_not_lt hrl), if_neg (fun h => hrl h.2),
          if_pos hx, hx, List.getD_eq_default _ _ (le_of_not_lt hrl)]
    · rw [getD_set_ne _ _ _ (fun h => hx h.symm), if_neg (fun h => hx h.1), if_neg hx]
  refine ⟨by rw [List.length_set]; exact hlen, ?_, ?_⟩
  · rw [hgetr]
    by_cases h0 : (0 : Nat) = s.r
    · by_cases hrl : s.r < s.l.length
      · rw [if_pos ⟨h0, hrl⟩]
        exact hA7 h0.symm
      · rw [if_neg (fun h => hrl h.2), if_pos h0]
    · rw [if_neg (fun h => h0 h.1), if_neg h0]
      exact hL0
  · intro x
    rw [hgetr]
    by_cases hx : x = s.r
    · by_cases hrl : s.r < s.l.length
      · rw [if_pos ⟨hx, hrl⟩]
        refine ⟨hcv, ?_, hci⟩
        rw [hx]
        exact hcj
      · rw [if_neg (fun h => hrl h.2), if_pos hx]
        exact ⟨trivial, by simp [candJD], by simp [candID]⟩
    · rw [if_neg (fun h => hx h.1), if_neg hx]
      have := hother x hx
      refine ⟨this.1, this.2.2.2, ?_⟩
      by_cases hxr : x < s.r
      · exact this.2.1 hxr
      · exact le_of_lt (this.2.2.1 (by omega))

/-- Folding kc.py's main loop over the remaining rows preserves the
threshold and cross-row invariants. -/
theorem kc_rows (A B : List α) (m n : Nat) (ml : List (List Nat))
    (hm : m = A.length) (hn : n = B.length)
    (hml : ∀ i, 1 ≤ i → i ≤ m →
      ∀ j ∈ ml.getD i [], 1 ≤ j ∧ j ≤ n ∧ A.get? (i - 1) = B.get? (j - 1)) :
    ∀ (cnt s : Nat) (t : List Nat) (l : List (Option Cand)),
      1 ≤ s → s + cnt = m + 1 →
      threshInv m n t → kcGlobalInv A B n t l (s - 1) →
      threshInv m n ((List.range' s cnt).foldl (kc.row n ml) (t, l)).1 ∧
      kcGlobalInv A B n ((List.range' s cnt).foldl (kc.row n ml) (t, l)).1
        ((List.range' s cnt).foldl (kc.row n ml) (t, l)).2 m
  | 0, s, t, l, hs1, hscnt, ht, hg => by
    have : s - 1 = m := by omega
    rw [List.range'_zero, List.foldl_nil]
    exact ⟨ht, this ▸ hg⟩
  | cnt + 1, s, t, l, hs1, hscnt, ht, hg => by
    rw [List.range'_succ, List.foldl_cons]
    have hsm : s ≤ m := by omega
    have hstart := kc_row_start A B m n s t l hs1 ht hg
    have hfold := kc_fold_inv A B m n s hs1 (by omega) hn (ml.getD s [])
      { t := t, l := l, k := 0, temp := 0, r := 0, c := l.getD 0 none }
      hstart (hml s hs1 hsm)
    have hend := kc_row_end A B m n s _ hfold
    have hrowform : kc.row n ml (t, l) s =
        (((ml.getD s []).foldl (kc.step n s)
            { t := t, l := l, k := 0, temp := 0, r := 0, c := l.getD 0 none }).t,
          ((ml.getD s []).foldl (kc.step n s)
            { t := t, l := l, k := 0, temp := 0, r := 0, c := l.getD 0 none }).l.set
            ((ml.getD s []).foldl (kc.step n s)
              { t := t, l := l, k := 0, temp := 0, r := 0, c := l.getD 0 none }).r
            ((ml.getD s []).foldl (kc.step n s)
              { t := t, l := l, k := 0, temp := 0, r := 0, c := l.getD 0 none }).c) := rfl
    rw [hrowform]
    have hnext := kc_rows A B m n ml hm hn hml cnt (s + 1) _ _
      (by omega) (by omega) hfold.1
      (by
        have hse : s + 1 - 1 = s := by omega
        rw [hse]
        exact hend)
    exact hnext

/-- C1 for kc.py: the returned match list is valid. -/
theorem kc_LCS_valid [LinearOrder α] (A B : List α) : ValidLCS A B (kc.LCS A B) := by
  unfold kc.LCS
  simp only
  set m := A.length with hm
  set n := B.length with hn
  set aa := List.insertionSort keyAsc (List.zip A (List.range' 1 m)) with haa
  set bb := List.insertionSort keyAsc (List.zip B (List.range' 1 n)) with hbb
  set ml := matchScan aa bb (List.replicate (m + 1) []) with hml
  have hmlf : ∀ i, 1 ≤ i → i ≤ m →
      ∀ j ∈ ml.getD i [], 1 ≤ j ∧ j ≤ n ∧ A.get? (i - 1) = B.get? (j - 1) := by
    intro i h1 h2
    have hlt : i - 1 < A.length := by omega
    obtain ⟨x, hx⟩ : ∃ x, A.get? (i - 1) = some x :=
      ⟨A.get ⟨i - 1, hlt⟩, List.get?_eq_get hlt⟩
    have := kc_ml_facts A B i x h1 h2 hx
    intro j hj
    have hj' := this.1 j hj
    exact ⟨hj'.1, hj'.2.1, by rw [hx, hj'.2.2]⟩
  have hrows := kc_rows A B m n ml hm hn hmlf m 1
    (threshInit m n) (List.replicate (m + 1) none)
    (Nat.le_refl 1) (by omega) (threshInit_inv m n)
    (by
      have hnone : ∀ k, (List.replicate (m + 1) (none : Option Cand)).getD k none = none := by
        intro k
        simp only [List.getD_eq_getElem?_getD, List.getElem?_replicate]
        split <;> simp
      refine ⟨by simp [threshInit], hnone 0, ?_⟩
      intro k
      rw [hnone]
      exact ⟨trivial, by simp [candJD], by simp [candID]⟩)
  set res := (List.range' 1 m).foldl (kc.row n ml)
    (threshInit m n, List.replicate (m + 1) none) with hres
  have hval : OptValid A B (res.2.getD (finalK res.1 m n) none) := (hrows.2.2.2 _).1
  exact optValid_reverse_valid A B _ hval

/-! ## hm.py main-loop validity (C1) -/

/-- Validity of an hm.py chain: pairs strictly decrease toward the bottom,
each a genuine match, and the chain bottoms out at the dummy `(0, 0, None)`
root installed at `K[0]`. -/
inductive Cand.HValid (A B : List α) : Cand → Prop where
  | root : Cand.HValid A B (Cand.mk 0 0 none)
  | cons (i j : Nat) (p : Cand) (hi1 : 1 ≤ i) (him : i ≤ A.length) (hj1 : 1 ≤ j)
      (hjn : j ≤ B.length) (hm : A.get? (i - 1) = B.get? (j - 1))
      (hpi : p.i < i) (hpj : p.j < j) (hp : Cand.HValid A B p) :
      Cand.HValid A B (Cand.mk i j (some p))

/-- Reading a `K` slot with the root as default (hm.py never reads the
`None` slots; see the remark at `hm.root`). -/
def kGet (K : List Cand) (s : Nat) : Cand := K.getD s hm.root

/-- The invariant of `K` between hm.py rows: every slot up to `k` holds a
root-terminated valid chain built from already-processed rows. -/
def hmKInv (A B : List α) (K : List Cand) (k idone : Nat) : Prop :=
  ∀ s, s ≤ k → Cand.HValid A B (kGet K s) ∧ (kGet K s).i ≤ idone

/-- The contract of hm.py's `merge` inner loop: given the zoned slot
invariant (slots before `r` may hold this-merge chains, slots from `r` on
hold strictly older ones), a valid pending chain `c`, and a position `p`
inside the current equivalence class (abstracted as the predicate `CO`
with its two facts `hline` and `hadv`), the loop returns a state in which
every slot up to the possibly-grown `k` — other than the slot `r` whose
write `merge` still owes (step #7) — holds a valid chain of rows ≤ `i`,
and the pending chain is valid. -/
theorem mergeLoop_spec (A B : List α) (E : List (Nat × Bool)) (i : Nat)
    (CO : Nat → Prop)
    (hline : ∀ p, CO p → ∀ jv, jv = (E.getD p (0, true)).1 → 1 ≤ jv →
      jv ≤ B.length ∧ A.get? (i - 1) = B.get? (jv - 1))
    (hadv : ∀ p, CO p → (E.getD p (0, true)).2 = false → CO (p + 1))
    (hi1 : 1 ≤ i) (him : i ≤ A.length) :
    ∀ (fuel : Nat) (K : List Cand) (k r : Nat) (c : Cand) (p : Nat),
      r ≤ k →
      (∀ s, s ≤ k → Cand.HValid A B (kGet K s) ∧
        (s < r → (kGet K s).i ≤ i) ∧ (r ≤ s → (kGet K s).i < i)) →
      Cand.HValid A B c → c.i ≤ i → CO p →
      (hm.mergeLoop E i fuel K k r c p).2.2.1 ≤ (hm.mergeLoop E i fuel K k r c p).2.1 ∧
      (∀ s, s ≤ (hm.mergeLoop E i fuel K k r c p).2.1 →
        s ≠ (hm.mergeLoop E i fuel K k r c p).2.2.1 →
        Cand.HValid A B (kGet (hm.mergeLoop E i fuel K k r c p).1 s) ∧
        (kGet (hm.mergeLoop E i fuel K k r c p).1 s).i ≤ i) ∧
      Cand.HValid A B (hm.mergeLoop E i fuel K k r c p).2.2.2 ∧
      (hm.mergeLoop E i fuel K k r c p).2.2.2.i ≤ i := by
  intro fuel
  induction fuel with
  | zero =>
    intro K k r c p hrk hKinv hcv hci hco
    simp only [hm.mergeLoop]
    exact ⟨hrk, fun s hs hsr => ⟨(hKinv s hs).1, by
      rcases Nat.lt_or_ge s r with h | h
      · exact (hKinv s hs).2.1 h
      · exact le_of_lt ((hKinv s hs).2.2 h)⟩, hcv, hci⟩
  | succ fuel ih =>
    intro K k r c p hrk hKinv hcv hci hco
    simp only [hm.mergeLoop]
    set j := (E.getD p (0, true)).1 with hjdef
    set s0 := bisectLeft (fun mid => (K.getD mid hm.root).j < j) r (k + 1) with hs0def
    set s := if s0 = r then s0 else s0 - 1 with hsdef
    have hs0spec := bisectLeft_spec (fun mid => decide ((K.getD mid hm.root).j < j))
      r (k + 1) (by omega)
    have hsr : r ≤ s := by
      rw [hsdef]
      by_cases h : s0 = r
      · rw [if_pos h]
        omega
      · rw [if_neg h]
        have := hs0spec.1
        omega
    have hsk : s ≤ k := by
      rw [hsdef]
      by_cases h : s0 = r
      · rw [if_pos h]
        omega
      · rw [if_neg h]
        have := hs0spec.2.1
        omega
    by_cases hguard : (K.getD s hm.root).j < j ∧ j < (K.getD (s + 1) hm.root).j
    · rw [if_pos hguard]
      -- the candidate is recorded
      have hj1 : 1 ≤ j := by
        have := hguard.1
        omega
      have hjfacts := hline p hco j hjdef hj1
      have hKs := hKinv s hsk
      have hc1v : Cand.HValid A B (Cand.mk i j (some (K.getD s hm.root))) := by
        refine Cand.HValid.cons i j (K.getD s hm.root) hi1 him hj1 hjfacts.1
          hjfacts.2 ?_ hguard.1 hKs.1
        exact hKs.2.2 hsr
      have hK1inv : ∀ s', s' ≤ k →
          Cand.HValid A B (kGet (K.set r c) s') ∧
          (s' < s + 1 → (kGet (K.set r c) s').i ≤ i) ∧
          (s + 1 ≤ s' → (kGet (K.set r c) s').i < i) := by
        intro s' hs'
        by_cases hs'r : s' = r
        · subst hs'r
          by_cases hrl : s' < K.length
          · unfold kGet
            rw [getD_set_self _ _ _ _ hrl]
            exact ⟨hcv, fun _ => hci, fun h => by omega⟩
          · unfold kGet
            rw [List.set_eq_of_length_le (le_of_not_lt hrl),
              List.getD_eq_default _ _ (le_of_not_lt hrl)]
            exact ⟨Cand.HValid.root, fun _ => by simp [hm.root, Cand.i],
              fun h => by omega⟩
        · unfold kGet
          rw [getD_set_ne _ _ _ (fun h => hs'r h.symm)]
          have := hKinv s' hs'
          refine ⟨this.1, fun h => ?_, fun h => ?_⟩
          · rcases Nat.lt_or_ge s' r with h' | h'
            · exact this.2.1 h'
            · exact le_of_lt (this.2.2 h')
          · exact this.2.2 (by omega)
      by_cases hsk' : s = k
      · rw [if_pos hsk']
        dsimp only
        -- grow K and break
        refine ⟨by omega, ?_, hc1v, by simp [Cand.i]⟩
        intro s' hs' hs'ne
        have hs'k : s' ≤ k := by omega
        have base := hK1inv s' hs'k
        unfold kGet
        rw [getD_set_ne _ _ _ (by omega)]
        refine ⟨base.1, ?_⟩
        rcases Nat.lt_or_ge s' (s + 1) with h | h
        · exact base.2.1 h
        · exact le_of_lt (base.2.2 h)
      · rw [if_neg hsk']
        by_cases hflag : (E.getD p (0, true)).2
        · rw [if_pos hflag]
          dsimp only
          -- record and break at end of class
          refine ⟨by omega, ?_, hc1v, by simp [Cand.i]⟩
          intro s' hs' hs'ne
          have base := hK1inv s' hs'
          refine ⟨base.1, ?_⟩
          rcases Nat.lt_or_ge s' (s + 1) with h | h
          · exact base.2.1 h
          · exact le_of_lt (base.2.2 h)
        · rw [if_neg hflag]
          -- record and continue within the class
          exact ih (K.set r c) k (s + 1) (Cand.mk i j (some (K.getD s hm.root))) (p + 1)
            (by omega) hK1inv hc1v (by simp [Cand.i])
            (hadv p hco (by simpa using hflag))
    · rw [if_neg hguard]
      by_cases hflag : (E.getD p (0, true)).2
      · rw [if_pos hflag]
        dsimp only
        exact ⟨hrk, fun s' hs' hs'r => ⟨(hKinv s' hs').1, by
          rcases Nat.lt_or_ge s' r with h | h
          · exact (hKinv s' hs').2.1 h
          · exact le_of_lt ((hKinv s' hs').2.2 h)⟩, hcv, hci⟩
      · rw [if_neg hflag]
        exact ih K k r c (p + 1) hrk hKinv hcv hci (hadv p hco (by simpa using hflag))

/-- The slot invariant only gets weaker as the row counter grows. -/
theorem hmKInv_mono (A B : List α) (K : List Cand) (k d d' : Nat)
    (hdd : d ≤ d') (h : hmKInv A B K k d) : hmKInv A B K k d' := by
  intro s hs
  exact ⟨(h s hs).1, le_trans (h s hs).2 hdd⟩

/-- hm.py `merge` preserves the between-rows slot invariant: steps #1 and
#7 around `mergeLoop_spec`, the still-owed write `K[r] = c` landing in the
excluded slot. -/
theorem merge_spec (A B : List α) (E : List (Nat × Bool)) (i : Nat)
    (CO : Nat → Prop)
    (hline : ∀ p, CO p → ∀ jv, jv = (E.getD p (0, true)).1 → 1 ≤ jv →
      jv ≤ B.length ∧ A.get? (i - 1) = B.get? (jv - 1))
    (hadv : ∀ p, CO p → (E.getD p (0, true)).2 = false → CO (p + 1))
    (hi1 : 1 ≤ i) (him : i ≤ A.length)
    (K : List Cand) (k p : Nat)
    (hK : hmKInv A B K k (i - 1)) (hco : CO p) :
    hmKInv A B (hm.merge E K k i p).1 (hm.merge E K k i p).2 i := by
  have hzone : ∀ s, s ≤ k → Cand.HValid A B (kGet K s) ∧
      (s < 0 → (kGet K s).i ≤ i) ∧ (0 ≤ s → (kGet K s).i < i) := by
    intro s hs
    have h := hK s hs
    have h2 := h.2
    exact ⟨h.1, fun hlt => by omega, fun _ => by omega⟩
  have hc0 := hK 0 (Nat.zero_le k)
  have hc0i : (kGet K 0).i ≤ i := by
    have := hc0.2
    omega
  have hspec := mergeLoop_spec A B E i CO hline hadv hi1 him (E.length + 1) K k 0
    (K.getD 0 hm.root) p (Nat.zero_le k) hzone hc0.1 hc0i hco
  unfold hm.merge
  dsimp only
  set res := hm.mergeLoop E i (E.length + 1) K k 0 (K.getD 0 hm.root) p with hres
  intro s hs
  by_cases hsr : s = res.2.2.1
  · by_cases hrl : res.2.2.1 < res.1.length
    · unfold kGet
      rw [hsr, getD_set_self _ _ _ _ hrl]
      exact ⟨hspec.2.2.1, hspec.2.2.2⟩
    · unfold kGet
      rw [hsr, List.set_eq_of_length_le (le_of_not_lt hrl),
        List.getD_eq_default _ _ (le_of_not_lt hrl)]
      exact ⟨Cand.HValid.root, by simp [hm.root, Cand.i]⟩
  · unfold kGet
    rw [getD_set_ne _ _ _ (fun h => hsr h.symm)]
    exact hspec.2.1 s hs hsr

/-- Step #6 of hm.py `LCS`: folding `merge` over the rows with a nonzero
`P[i]` keeps every `K` slot up to `k` a valid chain. -/
theorem hm_rows (A B : List α) (E : List (Nat × Bool)) (P : List Nat)
    (CO : Nat → Nat → Prop)
    (hline : ∀ i, 1 ≤ i → i ≤ A.length → ∀ p, CO i p →
      ∀ jv, jv = (E.getD p (0, true)).1 → 1 ≤ jv →
      jv ≤ B.length ∧ A.get? (i - 1) = B.get? (jv - 1))
    (hadv : ∀ i, 1 ≤ i → i ≤ A.length → ∀ p, CO i p →
      (E.getD p (0, true)).2 = false → CO i (p + 1))
    (hP : ∀ i, 1 ≤ i → i ≤ A.length → P.getD i 0 ≠ 0 → CO i (P.getD i 0)) :
    ∀ (cnt st : Nat) (Kk : List Cand × Nat),
      1 ≤ st → st + cnt = A.length + 1 →
      hmKInv A B Kk.1 Kk.2 (st - 1) →
      hmKInv A B
        ((List.range' st cnt).foldl (fun Kk i =>
          if P.getD i 0 ≠ 0 then hm.merge E Kk.1 Kk.2 i (P.getD i 0) else Kk) Kk).1
        ((List.range' st cnt).foldl (fun Kk i =>
          if P.getD i 0 ≠ 0 then hm.merge E Kk.1 Kk.2 i (P.getD i 0) else Kk) Kk).2
        A.length
  | 0, st, Kk, hst1, hstcnt, hKk => by
    rw [List.range'_zero, List.foldl_nil]
    have : st - 1 = A.length := by omega
    exact this ▸ hKk
  | cnt + 1, st, Kk, hst1, hstcnt, hKk => by
    rw [List.range'_succ, List.foldl_cons]
    have hstm : st ≤ A.length := by omega
    have hstep : hmKInv A B
        (if P.getD st 0 ≠ 0 then hm.merge E Kk.1 Kk.2 st (P.getD st 0) else Kk).1
        (if P.getD st 0 ≠ 0 then hm.merge E Kk.1 Kk.2 st (P.getD st 0) else Kk).2
        st := by
      by_cases hp : P.getD st 0 ≠ 0
      · rw [if_pos hp]
        exact merge_spec A B E st (CO st) (hline st hst1 hstm) (hadv st hst1 hstm)
          hst1 hstm Kk.1 Kk.2 (P.getD st 0) hKk (hP st hst1 hstm hp)
      · rw [if_neg hp]
        exact hmKInv_mono A B Kk.1 Kk.2 (st - 1) st (by omega) hKk
    have hnext := hm_rows A B E P CO hline hadv hP cnt (st + 1)
      (if P.getD st 0 ≠ 0 then hm.merge E Kk.1 Kk.2 st (P.getD st 0) else Kk)
      (by omega) (by omega)
      (by
        have : st + 1 - 1 = st := by omega
        rw [this]
        exact hstep)
    exact hnext

theorem getD_mem_of_lt {l : List α} {x : Nat} (h : x < l.length) (d : α) :
    l.getD x d ∈ l := by
  rw [List.getD_eq_getElem?_getD, List.getElem?_eq_getElem h]
  exact List.getElem_mem h

/-- The invariant of the `J` array of hm.py steps #7-#8: nonzero entries
are genuine matches, and they increase together with their index. -/
def JInv (A B : List α) (J : List Nat) : Prop :=
  (∀ x, J.getD x 0 ≠ 0 → 1 ≤ x ∧ x ≤ A.length ∧ 1 ≤ J.getD x 0 ∧
    J.getD x 0 ≤ B.length ∧ A.get? (x - 1) = B.get? (J.getD x 0 - 1)) ∧
  (∀ x y, x < y → J.getD x 0 ≠ 0 → J.getD y 0 ≠ 0 → J.getD x 0 < J.getD y 0)

/-- Walking a valid chain into `J` (step #8 of hm.py `LCS`) preserves the
`J` invariant, provided every nonzero entry already present lies strictly
above the chain's top pair. -/
theorem walkJ_inv (A B : List α) (c : Cand) (hc : Cand.HValid A B c) :
    ∀ J : List Nat, A.length < J.length → JInv A B J →
    (∀ x, J.getD x 0 ≠ 0 → c.i < x ∧ c.j < J.getD x 0) →
    JInv A B (hm.walkJ c J) := by
  induction hc with
  | root =>
    intro J hlen hJ habove
    show JInv A B (J.set 0 0)
    have h0 : (J.set 0 0).getD 0 0 = 0 := by
      rcases Nat.lt_or_ge 0 J.length with hl | hl
      · exact getD_set_self _ _ _ _ hl
      · rw [List.set_eq_of_length_le (by omega), List.getD_eq_default _ _ (by omega)]
    constructor
    · intro x hx
      have hxne : x ≠ 0 := by
        intro h
        rw [h, h0] at hx
        exact hx rfl
      rw [getD_set_ne _ _ _ (fun h => hxne h.symm)] at hx ⊢
      exact hJ.1 x hx
    · intro x y hxy hx hy
      have hxne : x ≠ 0 := by
        intro h
        rw [h, h0] at hx
        exact hx rfl
      have hyne : y ≠ 0 := by
        intro h
        rw [h, h0] at hy
        exact hy rfl
      rw [getD_set_ne _ _ _ (fun h => hxne h.symm)] at hx ⊢
      rw [getD_set_ne _ _ _ (fun h => hyne h.symm)] at hy ⊢
      exact hJ.2 x y hxy hx hy
  | cons i j p hi1 him hj1 hjn hmch hpi hpj hp ih =>
    intro J hlen hJ habove
    show JInv A B (hm.walkJ p (J.set i j))
    have hilt : i < J.length := by omega
    refine ih (J.set i j) (by rw [List.length_set]; exact hlen) ⟨?_, ?_⟩ ?_
    · intro x hx
      by_cases hxi : x = i
      · subst hxi
        rw [getD_set_self _ _ _ _ hilt] at hx ⊢
        exact ⟨hi1, him, hj1, hjn, hmch⟩
      · rw [getD_set_ne _ _ _ (fun h => hxi h.symm)] at hx ⊢
        exact hJ.1 x hx
    · intro x y hxy hx hy
      by_cases hxi : x = i
      · subst hxi
        rw [getD_set_self _ _ _ _ hilt] at hx ⊢
        rw [getD_set_ne _ _ _ (by omega)] at hy ⊢
        exact (habove y hy).2
      · by_cases hyi : y = i
        · subst hyi
          rw [getD_set_ne _ _ _ (fun h => hxi h.symm)] at hx ⊢
          have h1 := (habove x hx).1
          simp only [Cand.i] at h1
          omega
        · rw [getD_set_ne _ _ _ (fun h => hxi h.symm)] at hx ⊢
          rw [getD_set_ne _ _ _ (fun h => hyi h.symm)] at hy ⊢
          exact hJ.2 x y hxy hx hy
    · intro x hx
      by_cases hxi : x = i
      · subst hxi
        rw [getD_set_self _ _ _ _ hilt] at hx ⊢
        exact ⟨hpi, hpj⟩
      · rw [getD_set_ne _ _ _ (fun h => hxi h.symm)] at hx ⊢
        have h1 := (habove x hx).1
        have h2 := (habove x hx).2
        simp only [Cand.i] at h1
        simp only [Cand.j] at h2
        exact ⟨by omega, by omega⟩

/-- The match-pair list read off a `J` array satisfying `JInv` (the final
comprehension of hm.py `LCS`, line 111) is a valid common subsequence. -/
theorem JInv_output (A B : List α) (J : List Nat) (hJ : JInv A B J) (N : Nat) :
    ValidLCS A B ((List.range N).filterMap (fun i =>
      if J.getD i 0 ≠ 0 then some (i, J.getD i 0) else none)) := by
  constructor
  · intro pr hpr
    rw [List.mem_filterMap] at hpr
    obtain ⟨x, hx, hfx⟩ := hpr
    by_cases h : J.getD x 0 ≠ 0
    · rw [if_pos h] at hfx
      have heq := Option.some.inj hfx
      rw [← heq]
      exact hJ.1 x h
    · rw [if_neg h] at hfx
      exact absurd hfx (by simp)
  · apply List.Pairwise.chain'
    rw [List.pairwise_filterMap]
    refine (List.pairwise_lt_range N).imp ?_
    intro a b hab pr hpr pr' hpr'
    by_cases ha : J.getD a 0 ≠ 0
    · rw [if_pos ha, Option.mem_def] at hpr
      by_cases hb : J.getD b 0 ≠ 0
      · rw [if_pos hb, Option.mem_def] at hpr'
        have h1 := Option.some.inj hpr
        have h2 := Option.some.inj hpr'
        rw [← h1, ← h2]
        exact ⟨hab, hJ.2 a b hab ha hb⟩
      · rw [if_neg hb] at hpr'
        exact absurd hpr' (by simp)
    · rw [if_neg ha] at hpr
      exact absurd hpr (by simp)

/-- Membership in `zip(range(1, n+1), B)` (positions-first orientation,
hm.py line 36): the position is in range and indexes the paired value. -/
theorem mem_zip_range'_fst (L : List α) :
    ∀ (s : Nat) (p : Nat × α), p ∈ List.zip (List.range' s L.length) L →
      s ≤ p.1 ∧ p.1 < s + L.length ∧ L.get? (p.1 - s) = some p.2 := by
  induction L with
  | nil => simp
  | cons a L ih =>
    intro s p h
    simp only [List.length_cons, List.range', List.zip_cons_cons, List.mem_cons] at h
    rcases h with h | h
    · subst h
      refine ⟨le_refl s, ?_, by simp⟩
      dsimp only [List.length_cons]
      omega
    · have hih := ih (s + 1) p h
      have hlc : (a :: L).length = L.length + 1 := by simp
      refine ⟨by omega, by omega, ?_⟩
      have hps : p.1 - s = (p.1 - (s + 1)) + 1 := by omega
      rw [hps]
      simpa using hih.2.2

/-- Indexing the list `E` of `Eof`: behind the prepended `(0, True)`,
entry `p` comes from the comprehension evaluated at `p`. -/
theorem cons_map_range_getD (n : Nat) (a : β) (f : Nat → β) (p : Nat)
    (hp1 : 1 ≤ p) (hpn : p ≤ n) :
    (a :: (List.range' 1 n).map f).getD p a = f p := by
  obtain ⟨q, rfl⟩ : ∃ q, p = q + 1 := ⟨p - 1, by omega⟩
  rw [List.getD_cons_succ, List.getD_eq_getElem?_getD, List.getElem?_map,
    List.getElem?_range' 1 1 (by omega : q < n)]
  simp only [Option.map_some', Option.getD_some]
  congr 1
  omega

/-- Indexing the list `P` of `Pof`. -/
theorem map_range_getD (N : Nat) (g : Nat → β) (i : Nat) (hi : i < N) (d : β) :
    ((List.range N).map g).getD i d = g i := by
  rw [List.getD_eq_getElem?_getD, List.getElem?_map, List.getElem?_range hi]
  rfl

/-- `V` has the length of the sentinel-extended position/value list. -/
theorem Vof_length_le [LinearOrder α] (sent : α) (B : List α) :
    (hm.Vof sent B).length ≤ B.length + 1 := by
  unfold hm.Vof
  rw [(List.perm_insertionSort _ _).length_eq]
  split
  · simp [List.length_zip]
  · simp [List.length_zip]

/-- Every entry of the sorted rank table `V` is the sentinel `(0, sent)`
or a genuine 1-based position of `B` paired with the value there. -/
theorem Vof_entry [LinearOrder α] (sent : α) (B : List α) (p : Nat)
    (d : Nat × α) (hp : p < (hm.Vof sent B).length) :
    ((hm.Vof sent B).getD p d).1 = 0 ∨
      (1 ≤ ((hm.Vof sent B).getD p d).1 ∧
        ((hm.Vof sent B).getD p d).1 ≤ B.length ∧
        B.get? (((hm.Vof sent B).getD p d).1 - 1) =
          some ((hm.Vof sent B).getD p d).2) := by
  have hmem : (hm.Vof sent B).getD p d ∈ hm.Vof sent B := getD_mem_of_lt hp d
  have hmem1 : (hm.Vof sent B).getD p d ∈
      (if (List.zip (List.range' 1 B.length) B : List (Nat × α)) = [] then
        List.zip (List.range' 1 B.length) B
      else (0, sent) :: List.zip (List.range' 1 B.length) B) :=
    (List.perm_insertionSort _ _).subset hmem
  by_cases h0 : (List.zip (List.range' 1 B.length) B : List (Nat × α)) = []
  · rw [if_pos h0, h0] at hmem1
    exact absurd hmem1 (List.not_mem_nil _)
  · rw [if_neg h0] at hmem1
    rcases List.mem_cons.mp hmem1 with h | h
    · left
      rw [h]
    · right
      have hz := mem_zip_range'_fst B 1 _ h
      exact ⟨hz.1, by omega, by simpa using hz.2.2⟩

/-- Indexing `E` inside the range of the comprehension. -/
theorem Eof_getD [LinearOrder α] (sent : α) (B : List α) (p : Nat)
    (hp1 : 1 ≤ p) (hpn : p ≤ B.length) :
    (hm.Eof sent B).getD p (0, true) =
      (((hm.Vof sent B).getD p (0, sent)).1,
        p == B.length ||
          decide (((hm.Vof sent B).getD p (0, sent)).2 ≠
            ((hm.Vof sent B).getD (p + 1) (0, sent)).2)) := by
  unfold hm.Eof
  exact cons_map_range_getD B.length (0, true) _ p hp1 hpn

/-- The class predicate threaded through hm.py's `merge`: position `p` of
`V` lies in the equivalence class of row `i`'s value `A[i-1]`. -/
def hmCO [LinearOrder α] (sent : α) (A B : List α) (i p : Nat) : Prop :=
  1 ≤ p ∧ p ≤ B.length ∧
    ((hm.Vof sent B).getD p (0, sent)).2 = A.getD (i - 1) sent

/-- Inside a class, `V` is long enough to index. -/
theorem hmCO_lt_Vlen [LinearOrder α] (sent : α) (A B : List α) (i p : Nat)
    (hco : hmCO sent A B i p) : p < (hm.Vof sent B).length := by
  obtain ⟨h1, h2, _⟩ := hco
  have hBne : (List.zip (List.range' 1 B.length) B : List (Nat × α)) ≠ [] := by
    intro h
    have h' := congrArg List.length h
    rw [List.length_zip, List.length_range'] at h'
    simp at h'
    rw [h'] at h2
    simp at h2
    omega
  have hlen : (hm.Vof sent B).length = B.length + 1 := by
    unfold hm.Vof
    rw [(List.perm_insertionSort _ _).length_eq, if_neg hBne]
    simp [List.length_zip]
  omega

/-- The `j`-facts used by `merge`: inside row `i`'s class, a nonzero
`E[p][0]` is a valid `B`-position matching `A[i-1]`. -/
theorem hm_line [LinearOrder α] (sent : α) (A B : List α) (i : Nat)
    (h1 : 1 ≤ i) (h2 : i ≤ A.length) :
    ∀ p, hmCO sent A B i p →
      ∀ jv, jv = ((hm.Eof sent B).getD p (0, true)).1 → 1 ≤ jv →
      jv ≤ B.length ∧ A.get? (i - 1) = B.get? (jv - 1) := by
  intro p hco jv hjv hjv1
  have hpe := Eof_getD sent B p hco.1 hco.2.1
  rw [hpe] at hjv
  have hjv2 : jv = ((hm.Vof sent B).getD p (0, sent)).1 := hjv
  have hplt := hmCO_lt_Vlen sent A B i p hco
  rcases Vof_entry sent B p (0, sent) hplt with h | h
  · rw [h] at hjv2
    omega
  · obtain ⟨ha, hb, hc2⟩ := h
    refine ⟨by omega, ?_⟩
    have hlt : i - 1 < A.length := by omega
    have hgetA : A.get? (i - 1) = some (A.getD (i - 1) sent) := by
      rw [List.getD_eq_getElem?_getD, ← List.get?_eq_getElem?,
        List.get?_eq_get hlt]
      rfl
    rw [hgetA, hjv2, hc2, hco.2.2]

/-- Advancing within an equivalence class: a `False` end-of-class flag in
`E[p]` keeps position `p + 1` inside row `i`'s class. -/
theorem hm_adv [LinearOrder α] (sent : α) (A B : List α) (i : Nat)
    (_h1 : 1 ≤ i) (_h2 : i ≤ A.length) :
    ∀ p, hmCO sent A B i p → ((hm.Eof sent B).getD p (0, true)).2 = false →
      hmCO sent A B i (p + 1) := by
  intro p hco hflag
  have hpe := Eof_getD sent B p hco.1 hco.2.1
  rw [hpe] at hflag
  simp only [Bool.or_eq_false_iff, beq_eq_false_iff_ne, ne_eq,
    decide_eq_false_iff_not, not_not] at hflag
  have hco21 := hco.2.1
  refine ⟨by omega, by have := hflag.1; omega, ?_⟩
  rw [← hflag.2]
  exact hco.2.2

/-- A nonzero `P[i]` starts row `i` inside the right equivalence class:
the step-#4 guard `j < len(V) and V[j][1] == A[i-1]` re-checks the binary
search's answer. -/
theorem hm_P_fact [LinearOrder α] (sent : α) (A B : List α) (i : Nat)
    (h1 : 1 ≤ i) (h2 : i ≤ A.length)
    (hne : (hm.Pof sent A B).getD i 0 ≠ 0) :
    hmCO sent A B i ((hm.Pof sent A B).getD i 0) := by
  have hform : (hm.Pof sent A B).getD i 0 =
      (if i = 0 then 0
       else
        if bisectLeft (fun mid =>
              decide (((hm.Vof sent B).getD mid (0, sent)).2 < A.getD (i - 1) sent))
            1 (hm.Vof sent B).length < (hm.Vof sent B).length ∧
           ((hm.Vof sent B).getD (bisectLeft (fun mid =>
              decide (((hm.Vof sent B).getD mid (0, sent)).2 < A.getD (i - 1) sent))
            1 (hm.Vof sent B).length) (0, sent)).2 = A.getD (i - 1) sent
        then bisectLeft (fun mid =>
              decide (((hm.Vof sent B).getD mid (0, sent)).2 < A.getD (i - 1) sent))
            1 (hm.Vof sent B).length
        else 0) := by
    unfold hm.Pof
    exact map_range_getD (A.length + 1) _ i (by omega) 0
  rw [hform, if_neg (by omega : ¬ i = 0)] at hne ⊢
  set j0 := bisectLeft (fun mid =>
      decide (((hm.Vof sent B).getD mid (0, sent)).2 < A.getD (i - 1) sent))
    1 (hm.Vof sent B).length with hj0
  by_cases hcond : j0 < (hm.Vof sent B).length ∧
      ((hm.Vof sent B).getD j0 (0, sent)).2 = A.getD (i - 1) sent
  · rw [if_pos hcond] at hne ⊢
    have hc1 := hcond.1
    have hlen1 : 1 ≤ (hm.Vof sent B).length := by omega
    have hspec := bisectLeft_spec (fun mid =>
        decide (((hm.Vof sent B).getD mid (0, sent)).2 < A.getD (i - 1) sent))
      1 (hm.Vof sent B).length hlen1
    have hs1 := hspec.1
    have hVle := Vof_length_le sent B
    exact ⟨by omega, by omega, hcond.2⟩
  · rw [if_neg hcond] at hne
    exact absurd rfl hne

/-- C1 for hm.py: the returned match list is valid. -/
theorem hm_LCS_valid [LinearOrder α] (sent : α) (A B : List α) :
    ValidLCS A B (hm.LCS sent A B) := by
  unfold hm.LCS
  simp only
  set m := A.length with hmdef
  set n := B.length with hndef
  set E := hm.Eof sent B with hEd
  set P := hm.Pof sent A B with hPd
  set K0 := (List.replicate (min m n + 2) hm.root).set 1
    (Cand.mk (m + 1) (n + 1) none) with hK0
  set Kk := (List.range' 1 m).foldl (fun Kk i =>
    if P.getD i 0 ≠ 0 then hm.merge E Kk.1 Kk.2 i (P.getD i 0) else Kk)
    (K0, 0) with hKk
  have hinit : hmKInv A B K0 0 0 := by
    intro s hs
    have hs0 : s = 0 := by omega
    subst hs0
    have hroot : kGet K0 0 = hm.root := by
      unfold kGet
      rw [hK0, getD_set_ne _ _ _ (by omega)]
      rw [List.getD_eq_getElem?_getD, List.getElem?_replicate]
      split
      · rfl
      · rfl
    rw [hroot]
    exact ⟨Cand.HValid.root, by simp [hm.root, Cand.i]⟩
  have hrows := hm_rows A B E P (hmCO sent A B)
    (fun i h1 h2 => hm_line sent A B i h1 h2)
    (fun i h1 h2 => hm_adv sent A B i h1 h2)
    (fun i h1 h2 hne => hm_P_fact sent A B i h1 h2 hne)
    m 1 (K0, 0) (le_refl 1) (by omega) hinit
  rw [← hKk] at hrows
  have hc : Cand.HValid A B (kGet Kk.1 Kk.2) := (hrows Kk.2 (le_refl _)).1
  have hrep0 : ∀ x, (List.replicate (m + 1) (0 : Nat)).getD x 0 = 0 := by
    intro x
    rw [List.getD_eq_getElem?_getD, List.getElem?_replicate]
    split
    · rfl
    · rfl
  have hJ : JInv A B (hm.walkJ (kGet Kk.1 Kk.2) (List.replicate (m + 1) 0)) := by
    refine walkJ_inv A B _ hc (List.replicate (m + 1) 0) ?_ ⟨?_, ?_⟩ ?_
    · rw [List.length_replicate]
      omega
    · intro x hx
      exact absurd (hrep0 x) hx
    · intro x y hxy hx hy
      exact absurd (hrep0 x) hx
    · intro x hx
      exact absurd (hrep0 x) hx
  exact JInv_output A B _ hJ (m + 1)

/-- C1: every LCS engine (hm.LCS — for any sentinel value, covering both
the `''` and `0` cases of its type dispatch — hs.LCS, and kc.LCS) returns
a list of pairs (i, j) with 1 ≤ i ≤ |A|, 1 ≤ j ≤ |B|, A[i-1] = B[j-1],
and consecutive pairs strictly increasing in both coordinates. -/
theorem engines_return_valid_matches [LinearOrder α] (sent : α) (A B : List α) :
    ValidLCS A B (hm.LCS sent A B) ∧ ValidLCS A B (hs.LCS A B) ∧
      ValidLCS A B (kc.LCS A B) :=
  ⟨hm_LCS_valid sent A B, hs_LCS_valid A B, kc_LCS_valid A B⟩
